import Mathlib

/-!
Verification of the natural-language specification of `gwdetchar` (the
Omega-scan driver `gwdetchar/omega/__main__.py` and the scattering
utilities `gwdetchar/scattering/core.py`) against a shallow embedding of
the code in Lean.

Real numbers of the Python code (GPS times, durations, sample values) are
modelled as rationals.  External collaborators (scipy's `savgol_filter`,
frame-file data retrieval, the Q-transform, state-flag lookup, plotting
and HTML rendering) are modelled as parameters or as entries of an
explicit event trace, mirroring the spec's statement that they are invoked
through narrow interfaces only.
-/

/-! ## Rational-number helpers -/

/-- Floor of a rational, computed on the numerator/denominator pair
(`Int.fdiv` is floor division; a `Rat`'s denominator is positive). -/
def qfloor (q : ℚ) : ℤ :=
  Int.fdiv q.num q.den

/-- Ceiling of a rational. -/
def qceil (q : ℚ) : ℤ :=
  -qfloor (-q)

/-- Python's `x or y` for a possibly-absent string `x`: the empty string and
`None` are falsy, every other string is truthy.  (In the code the fallback
`y` is always a non-`None` string.) -/
def pyOrStr (a : Option String) (b : String) : String :=
  match a with
  | some s => if s = "" then b else s
  | none => b

/-- A `gwpy.timeseries.TimeSeries`: sample values with start time `t0`,
sample step `dt`, sample rate, a name and a unit. -/
structure TimeSeriesQ where
  t0 : ℚ
  dt : ℚ
  value : List ℚ
  sample_rate : ℚ
  name : String
  unit : String
deriving DecidableEq, Repr

/-- Embedding of `get_fringe_frequency(series, multiplier=2.0)` from
`gwdetchar/scattering/core.py`.  The Savitzky-Golay filter is scipy's
(an external collaborator); it is passed in as a function of
(values, window_length, polyorder, deriv) and the code applies it with
window length 5, polynomial order 2 and first derivative.  The result
keeps the input's metadata (`__array_finalize__`) and its unit is
overridden to `'Hz'`. -/
def get_fringe_frequency (savgol_filter : List ℚ → ℕ → ℕ → ℕ → List ℚ)
    (series : TimeSeriesQ) (multiplier : ℚ) : TimeSeriesQ :=
  let velocity := savgol_filter series.value 5 2 1
  { series with
    value := velocity.map (fun v =>
      |multiplier * 2 / (1.064 : ℚ) * v * series.sample_rate|)
    unit := "Hz" }

/-- The function `get_fringe_frequency` with its default `multiplier=2.0`. -/
def get_fringe_frequencyDefault (savgol_filter : List ℚ → ℕ → ℕ → ℕ → List ℚ)
    (series : TimeSeriesQ) : TimeSeriesQ :=
  get_fringe_frequency savgol_filter series 2

/-- A `gwpy.timeseries.StateTimeSeries`: a boolean sample record, as produced
by comparing a `TimeSeries` with a threshold.  Sample `j` covers the
half-open time interval from `t0 + j*dt` to `t0 + (j+1)*dt`. -/
structure StateTimeSeriesQ where
  t0 : ℚ
  dt : ℚ
  value : List Bool
  name : String
deriving DecidableEq, Repr

/-- A `gwpy.segments.DataQualityFlag`. -/
structure DataQualityFlag where
  name : String
  known : List (ℚ × ℚ)
  active : List (ℚ × ℚ)
deriving DecidableEq, Repr

/-- Embedding of `series > threshold` on a gwpy `TimeSeries`: the pointwise strict
comparison, keeping the metadata. -/
def seriesGT (series : TimeSeriesQ) (threshold : ℚ) : StateTimeSeriesQ :=
  { t0 := series.t0
    dt := series.dt
    value := series.value.map (fun v => decide (threshold < v))
    name := series.name }

/-- The maximal runs of `true` samples of a boolean list, as pairs
(start index, one-past-the-end index), offset by `i`. -/
def trueRuns (i : ℕ) : List Bool → List (ℕ × ℕ)
  | [] => []
  | b :: bs =>
    if b then
      match trueRuns (i + 1) bs with
      | [] => [(i, i + 1)]
      | (s, e) :: rest =>
        if s = i + 1 then (i, e) :: rest else (i, i + 1) :: (s, e) :: rest
    else trueRuns (i + 1) bs

/-- Embedding of `StateTimeSeries.to_segmentlist` (gwpy, external collaborator): each
contiguous run of `true` samples becomes one segment of GPS times. -/
def to_segmentlist (s : StateTimeSeriesQ) : List (ℚ × ℚ) :=
  (trueRuns 0 s.value).map (fun r => (s.t0 + r.1 * s.dt, s.t0 + r.2 * s.dt))

/-- Embedding of `Segment.round` with expansion (gwpy, external collaborator): round a
segment outward to its inclusive integer boundaries. -/
def roundSeg (seg : ℚ × ℚ) : ℚ × ℚ :=
  ((qfloor seg.1 : ℚ), (qceil seg.2 : ℚ))

/-- Merge a sorted segment list: segments that touch or overlap coalesce. -/
def coalesceAux : ℚ × ℚ → List (ℚ × ℚ) → List (ℚ × ℚ)
  | cur, [] => [cur]
  | cur, b :: rest =>
    if b.1 ≤ cur.2 then coalesceAux (cur.1, max cur.2 b.2) rest
    else cur :: coalesceAux b rest

/-- Embedding of `SegmentList.coalesce` (ligo.segments, external collaborator) on an
already-sorted segment list. -/
def coalesce : List (ℚ × ℚ) → List (ℚ × ℚ)
  | [] => []
  | a :: rest => coalesceAux a rest

/-- Embedding of `StateTimeSeries.to_dqflag(name, round=...)` (gwpy, external
collaborator): the runs of `true` samples become the flag's active
segments; with `round` each segment is first rounded outward to its
inclusive integer boundaries; the result is coalesced.  The known span is
the full extent of the series. -/
def to_dqflag (s : StateTimeSeriesQ) (name : String) (round : Bool) :
    DataQualityFlag :=
  let segs := to_segmentlist s
  { name := name
    known := [(s.t0, s.t0 + s.value.length * s.dt)]
    active := if round then coalesce (segs.map roundSeg) else coalesce segs }

/-- Embedding of `get_segments(series, threshold, name=None)` from
`gwdetchar/scattering/core.py`: threshold the series, pick
`name or series.name`, and convert to a data-quality flag with
`round=True`. -/
def get_segments (series : TimeSeriesQ) (threshold : ℚ)
    (name : Option String) : DataQualityFlag :=
  let thresh := seriesGT series threshold
  let name2 := pyOrStr name series.name
  to_dqflag thresh name2 true

/-- Whether the GPS time `t` lies in one of the segments. -/
def inSegs (segs : List (ℚ × ℚ)) (t : ℚ) : Bool :=
  segs.any (fun s => decide (s.1 ≤ t) && decide (t < s.2))

/-- Whether the sample of `series` covering time `t` exceeds `threshold`
strictly. -/
def sampleExceeds (series : TimeSeriesQ) (threshold : ℚ) (t : ℚ) : Bool :=
  (List.range series.value.length).any (fun j =>
    decide (series.t0 + j * series.dt ≤ t) &&
    decide (t < series.t0 + (j + 1) * series.dt) &&
    decide (threshold < series.value.getD j 0))

/-- A concrete one-sample time series used to exercise `get_segments`:
one sample of value 1 starting at GPS time 1/2 with unit sample step. -/
def serCex : TimeSeriesQ :=
  { t0 := 1/2, dt := 1, value := [1], sample_rate := 1,
    name := "X1:TEST-SER", unit := "ct" }

/-- The literal reading of C8: the active segments of the returned flag
are exactly the times at which the series value strictly exceeds the
threshold, and the flag is named by the `name` argument when one is
given, otherwise by the series' own name. -/
def claimC8Literal (series : TimeSeriesQ) (threshold : ℚ)
    (name : Option String) : Prop :=
  (∀ t : ℚ, inSegs (get_segments series threshold name).active t =
      sampleExceeds series threshold t) ∧
  (∀ n, name = some n → (get_segments series threshold name).name = n) ∧
  (name = none → (get_segments series threshold name).name = series.name)

/-- A concrete one-sample series for exercising the amended C8 statement. -/
def serW : TimeSeriesQ :=
  { t0 := 0, dt := 1, value := [1], sample_rate := 1,
    name := "X1:SEG-TEST", unit := "ct" }

/-- One channel of a configured block (`config.OmegaChannel`): its data
channel name and the configuration section (`channel.section`) it came
from. -/
structure OmegaChannel where
  name : String
  sectionName : String
deriving DecidableEq, Repr

/-- One contextual channel block (`config.OmegaChannelList`): the
configuration fields the driver reads. -/
structure OmegaChannelList where
  key : String
  name : String
  duration : ℚ
  fftlength : ℚ
  resample : Option ℚ
  frametype : Option String
  source : Option String
  flag : Option String
  dt : ℚ
  channels : List OmegaChannel
deriving DecidableEq, Repr

/-- The `[primary]` section (`config.OmegaChannelList('primary', ...)`):
the fields the driver reads when building the matched filter. -/
structure PrimaryChannelList where
  channelName : String
  duration : ℚ
  fftlength : ℚ
  length : ℚ
  flow : ℚ
  resample : Option ℚ
  frametype : Option String
  source : Option String
deriving DecidableEq, Repr

/-- The parsed configuration: an optional `[primary]` section and the
contextual channel blocks (`cp.get_channel_blocks()`), in file order. -/
structure OmegaConfig where
  primarySection : Option PrimaryChannelList
  blocks : List OmegaChannelList
deriving Repr

/-- The command-line arguments of the `gwdetchar-omega` entry point. -/
structure Args where
  gpstime : ℚ
  ifo : Option String
  output_directory : Option String
  config_file : Option (List String)
  disable_correlation : Bool
  disable_checkpoint : Bool
  ignore_state_flags : Bool
  far_threshold : ℚ
  frequency_scaling : String
  colormap : String
  nproc : ℕ
deriving Repr

/-- The checkpoint file `data/summary.csv` as the driver reads it: its
column names and its `Channel` column.  (Feature payloads are opaque to
the orchestration logic.) -/
structure CheckpointRecord where
  colnames : List String
  channelColumn : List String
deriving DecidableEq, Repr

/-- The exceptions `omega.scan` can raise that the driver catches. -/
inductive ScanExc
  | valueError
  | keyError
deriving DecidableEq, Repr

/-- The environment of external collaborators: whether `data/summary.csv`
exists and its contents, `check_flag`, the outcome of `omega.scan` per
channel name (an exception, `None` for an insignificant channel, or a
series), and `config.get_default_configuration`. -/
structure Env where
  summaryExists : Bool
  record : CheckpointRecord
  check_flag : String → ℚ → ℚ → ℚ → Bool
  scan : String → Except ScanExc (Option ℕ)
  get_default_configuration : String → ℚ → List String

/-- One observable action of the driver. -/
inductive Event
  | fetchPrimary (channel : String) (start fin : ℚ)
  | buildPrimaryFilter (channel : String)
  | queryFlag (flag : String)
  | skipBlock (key : String)
  | fetchBlock (channels : List String) (start fin : ℚ)
  | loadCheckpoint (channel : String) (cindex : ℕ) (correlated : Bool)
  | scanChannel (channel : String)
  | skipChannel (channel : String)
  | notSignificant (channel : String)
  | plotChannel (channel : String)
  | crossCorrelate (channel : String)
  | saveFeatures (channel : String) (withCorrelation : Bool)
  | writePage (ifo : String) (gps : ℚ) (toc : List String) (refresh : Bool)
  | writeNull (ifo : String) (gps : ℚ) (reason : String)
deriving DecidableEq, Repr

/-- Embedding of `numpy.around(q, 2)`: round to two decimal places, ties to even. -/
def roundHalfEven (q : ℚ) : ℤ :=
  if q - (qfloor q : ℚ) < 1/2 then qfloor q
  else if 1/2 < q - (qfloor q : ℚ) then qfloor q + 1
  else if 2 ∣ qfloor q then qfloor q else qfloor q + 1

/-- Embedding of `numpy.around(float(args.gpstime), 2)` (line 151). -/
def around2 (q : ℚ) : ℚ :=
  (roundHalfEven (q * 100) : ℚ) / 100

/-- Embedding of `'Network' or args.ifo` (line 150): Python `or` with a string literal
on the left; a non-empty literal is truthy, so the right operand is never
used.  (When the left operand is empty and the right is `None`, Python
would yield `None`; that case is unreachable here and modelled as `""`.) -/
def pyOrLit (a : String) (b : Option String) : String :=
  if a = "" then b.getD "" else a

/-- Embedding of `args.config_file or config.get_default_configuration(...)`
(lines 155-158): Python `or` on a possibly-absent list; `None` and the
empty list are falsy. -/
def pyOrList (a : Option (List String)) (b : List String) : List String :=
  match a with
  | some l => if l = [] then b else l
  | none => b

/-- The default output directory `'~/public_html/wdq/...'` (lines 196-201). -/
def defaultOutdir (ifo : String) (gps : ℚ) : String :=
  "~/public_html/wdq/" ++ ifo ++ "_" ++ toString gps

/-- The null-page reason string (lines 347-348). -/
def nullReason : String :=
  "No significant channels found during active analysis segments"

/-- Modelled from the spec: `html.update_toc` (module `gwdetchar.omega.html`,
whose source is not part of this snapshot) adds an analyzed channel to the
report's table of contents under its block's display name, keeping
insertion order. -/
def update_toc (analyzed : List (String × List String)) (blockName : String)
    (channel : String) : List (String × List String) :=
  match analyzed with
  | [] => [(blockName, [channel])]
  | (n, cs) :: rest =>
    if n = blockName then (n, cs ++ [channel]) :: rest
    else (n, cs) :: update_toc rest blockName channel

/-- All channels listed in a table of contents. -/
def tocChannels (analyzed : List (String × List String)) : List String :=
  (analyzed.map Prod.snd).flatten

/-- Embedding of `blocks[channel.section].name` (lines 297 and 335): the display name of
the block a channel belongs to. -/
def blockNameOf (blocks : List OmegaChannelList) (c : OmegaChannel) : String :=
  ((blocks.find? (fun b => b.key == c.sectionName)).map OmegaChannelList.name).getD ""

/-- The driver's loop state: the table of contents of analyzed channels
and the event trace so far. -/
structure ScanState where
  analyzed : List (String × List String)
  events : List Event
deriving DecidableEq, Repr

/-- The per-channel body of the block loop of `main` (lines 289-337):
a channel found in the checkpoint is restored (its loudest-tile features
loaded from row `completed.index(name)`, the table of contents updated,
the page rewritten) and not scanned; otherwise the channel is scanned:
a `ValueError`/`KeyError` skips it with a warning, a `None` result skips
it as insignificant, and a significant result is plotted, optionally
cross-correlated, saved, added to the table of contents, and the page is
rewritten. -/
def processChannel (env : Env) (correlate : Bool) (completed : List String)
    (blocks : List OmegaChannelList) (ifo : String) (gps : ℚ)
    (st : ScanState) (channel : OmegaChannel) : ScanState :=
  if channel.name ∈ completed then
    let cindex := completed.indexOf channel.name
    let analyzed := update_toc st.analyzed (blockNameOf blocks channel) channel.name
    { analyzed := analyzed
      events := st.events ++
        [.loadCheckpoint channel.name cindex correlate,
         .writePage ifo gps (tocChannels analyzed) true] }
  else
    match env.scan channel.name with
    | .error _ =>
      { st with events := st.events ++
          [.scanChannel channel.name, .skipChannel channel.name] }
    | .ok none =>
      { st with events := st.events ++
          [.scanChannel channel.name, .notSignificant channel.name] }
    | .ok (some _) =>
      let analyzed := update_toc st.analyzed (blockNameOf blocks channel) channel.name
      { analyzed := analyzed
        events := st.events ++
          [.scanChannel channel.name, .plotChannel channel.name] ++
          (if correlate then [.crossCorrelate channel.name] else []) ++
          [.saveFeatures channel.name correlate,
           .writePage ifo gps (tocChannels analyzed) true] }

/-- The data-fetch and channel loop of one block (lines 279-337): if not
every channel of the block is already completed, all the block's channels
are read in one batched `get_data` call over the padded window; then each
channel is processed. -/
def processBlockChannels (env : Env) (correlate : Bool)
    (completed : List String) (blocks : List OmegaChannelList)
    (ifo : String) (gps : ℚ) (st : ScanState) (block : OmegaChannelList) :
    ScanState :=
  let chans := block.channels.map OmegaChannel.name
  let st1 :=
    if !(chans.all (fun c => c ∈ completed)) then
      { st with events := st.events ++
          [.fetchBlock chans (gps - block.duration/2 - 1)
            (gps + block.duration/2 + 1)] }
    else st
  block.channels.foldl (processChannel env correlate completed blocks ifo gps) st1

/-- One iteration of the block loop of `main` (lines 266-337): when the
block names a (truthy) state flag and state flags are not ignored, the
flag is queried over the padded window; an inactive flag skips the whole
block. -/
def processBlock (args : Args) (env : Env) (correlate : Bool)
    (completed : List String) (blocks : List OmegaChannelList)
    (ifo : String) (gps : ℚ) (st : ScanState) (block : OmegaChannelList) :
    ScanState :=
  if (match block.flag with
      | some f => decide (f ≠ "")
      | none => false) && !args.ignore_state_flags then
    let f := block.flag.getD ""
    if !(env.check_flag f gps block.duration 1) then
      { st with events := st.events ++ [.queryFlag f, .skipBlock block.key] }
    else
      processBlockChannels env correlate completed blocks ifo gps
        { st with events := st.events ++ [.queryFlag f] } block
  else
    processBlockChannels env correlate completed blocks ifo gps st block

/-- The driver raised a `KeyError` (lines 224-229); the payload is the
event trace up to that point (nothing has been fetched, scanned or
written). -/
inductive MainExc
  | keyError (trace : List Event)
deriving DecidableEq, Repr

/-- The outcome of a completed run of `main`. -/
structure MainOk where
  ifo : String
  gps : ℚ
  title : String
  config_file : List String
  outdir : String
  correlated : Bool
  completed : List String
  analyzed : List (String × List String)
  events : List Event
deriving DecidableEq, Repr

/-- The `completed` list of `main` (lines 219-232): the checkpoint's
`Channel` column when `data/summary.csv` exists and checkpointing is not
disabled, else empty. -/
def completedOf (args : Args) (env : Env) : List String :=
  if env.summaryExists && !args.disable_checkpoint then
    env.record.channelColumn
  else []

/-- Whether an event is a batched block data fetch. -/
def isFetchBlock : Event → Bool
  | .fetchBlock _ _ _ => true
  | _ => false

/-- The window property of claim C2, as a predicate on one trace event:
every block fetch reads the block's channels over
`[t - d/2 - 1, t + d/2 + 1]` around the rounded GPS time `t`, and
likewise the primary fetch with the primary section's duration. -/
def FetchOk (args : Args) (cfg : OmegaConfig) : Event → Prop
  | .fetchBlock chans s e =>
    ∃ b ∈ cfg.blocks, chans = b.channels.map OmegaChannel.name ∧
      s = around2 args.gpstime - b.duration/2 - 1 ∧
      e = around2 args.gpstime + b.duration/2 + 1
  | .fetchPrimary n s e =>
    ∃ p, cfg.primarySection = some p ∧ args.disable_correlation = false ∧
      n = p.channelName ∧
      s = around2 args.gpstime - p.duration/2 - 1 ∧
      e = around2 args.gpstime + p.duration/2 + 1
  | _ => True

/-- The channels an event marks as handled (restored from checkpoint or
saved after a significant scan). -/
def hch : Event → List String
  | .loadCheckpoint c _ _ => [c]
  | .saveFeatures c _ => [c]
  | _ => []

/-- All channels handled by a trace, in order. -/
def handledChannels (events : List Event) : List String :=
  events.flatMap hch

/-- The table of contents an event writes, when it is a page write. -/
def pageToc : Event → Option (List String)
  | .writePage _ _ toc _ => some toc
  | _ => none

/-- Claim C4's page invariant over a trace: every page write lists exactly
(up to grouping by block) the channels handled so far, `acc` being the
channels handled before the trace starts. -/
def WP (acc : List String) : List Event → Prop
  | [] => True
  | e :: es =>
    (∀ toc, pageToc e = some toc → toc.Perm acc) ∧ WP (acc ++ hch e) es

/-- The label `ifo = 'Network' or args.ifo` (line 150). -/
def ifoOf (args : Args) : String :=
  pyOrLit "Network" args.ifo

/-- The time `gps = numpy.around(float(args.gpstime), 2)` (line 151). -/
def gpsOf (args : Args) : ℚ :=
  around2 args.gpstime

/-- The value of `args.disable_correlation` after the primary section is
parsed (lines 167-176): a missing `[primary]` section warns and disables
cross-correlation. -/
def disable_correlationOf (args : Args) (cfg : OmegaConfig) : Bool :=
  args.disable_correlation || cfg.primarySection.isNone

/-- Whether the checkpoint `KeyError` of lines 224-229 fires: an existing
checkpoint is read, correlation is on, and the record has no
`'Standard Deviation'` column. -/
def checkpointKeyError (args : Args) (cfg : OmegaConfig) (env : Env) : Bool :=
  (env.summaryExists && !args.disable_checkpoint) &&
  !(disable_correlationOf args cfg) &&
  !(env.record.colnames.contains "Standard Deviation")

/-- The state after the initial page write (line 236) and the primary
matched-filter construction (lines 241-263), paired with whether a
matched filter exists (`correlate is not None`). -/
def initScan (args : Args) (cfg : OmegaConfig) : ScanState × Bool :=
  let ifo := ifoOf args
  let gps := gpsOf args
  let st0 : ScanState := { analyzed := [], events := [.writePage ifo gps [] true] }
  if disable_correlationOf args cfg then (st0, false)
  else
    match (if args.disable_correlation then none else cfg.primarySection) with
    | some p =>
      ({ st0 with events := st0.events ++
          [.fetchPrimary p.channelName (gps - p.duration/2 - 1)
            (gps + p.duration/2 + 1),
           .buildPrimaryFilter p.channelName] }, true)
    | none => (st0, false)

/-- The non-raising path of `main`: checkpoint handling, initial page,
primary filter, the block loop, and the final page or null page
(lines 207-350). -/
def omega_main_run (args : Args) (cfg : OmegaConfig) (env : Env) : MainOk :=
  let ifo := ifoOf args
  let gps := gpsOf args
  let completed := completedOf args env
  let init := initScan args cfg
  let st2 := cfg.blocks.foldl
    (processBlock args env init.2 completed cfg.blocks ifo gps) init.1
  { ifo := ifo
    gps := gps
    title := ifo ++ " Qscan | " ++ toString gps
    config_file := pyOrList args.config_file
      (env.get_default_configuration ifo gps)
    outdir := pyOrStr args.output_directory (defaultOutdir ifo gps)
    correlated := init.2
    completed := completed
    analyzed := st2.analyzed
    events := st2.events ++
      [if st2.analyzed ≠ [] then
        Event.writePage ifo gps (tocChannels st2.analyzed) false
      else
        Event.writeNull ifo gps nullReason] }

/-- Embedding of `main` of `gwdetchar/omega/__main__.py`, over parsed arguments, the
parsed configuration, and the environment of external collaborators.
(Named `omega_main` because `main` is reserved for program entry points.)
The checkpoint `KeyError` of lines 224-229 is raised before anything is
fetched, scanned or written, so its trace payload is empty. -/
def omega_main (args : Args) (cfg : OmegaConfig) (env : Env) :
    Except MainExc MainOk :=
  if checkpointKeyError args cfg env then .error (.keyError [])
  else .ok (omega_main_run args cfg env)

/-- Concrete arguments for exercising the driver: GPS time 5, no ifo, one
explicit configuration file, correlation and checkpointing disabled. -/
def argsW : Args :=
  { gpstime := 5, ifo := none, output_directory := none,
    config_file := some ["/etc/omega.ini"], disable_correlation := true,
    disable_checkpoint := true, ignore_state_flags := false,
    far_threshold := 1/100, frequency_scaling := "log",
    colormap := "viridis", nproc := 1 }

/-- A concrete configured channel. -/
def chanW : OmegaChannel :=
  { name := "X1:GW", sectionName := "GW" }

/-- A concrete channel block of duration 4 with no state flag. -/
def blockW : OmegaChannelList :=
  { key := "GW", name := "Gravitational Wave Strain", duration := 4,
    fftlength := 2, resample := none, frametype := none, source := none,
    flag := none, dt := 1/10, channels := [chanW] }

/-- A concrete configuration: one block, no `[primary]` section. -/
def cfgW : OmegaConfig :=
  { primarySection := none, blocks := [blockW] }

/-- A concrete environment: no checkpoint file, flags always active, every
scan significant. -/
def envW : Env :=
  { summaryExists := false, record := { colnames := [], channelColumn := [] },
    check_flag := fun _ _ _ _ => true, scan := fun _ => .ok (some 0),
    get_default_configuration := fun _ _ => [] }

/-- The trace `omega_main argsW cfgW envW` produces. -/
def rW : MainOk :=
  { ifo := "Network"
    gps := around2 5
    title := "Network" ++ " Qscan | " ++ toString (around2 (5 : ℚ))
    config_file := ["/etc/omega.ini"]
    outdir := defaultOutdir "Network" (around2 5)
    correlated := false
    completed := []
    analyzed := [("Gravitational Wave Strain", ["X1:GW"])]
    events := [
      .writePage "Network" (around2 5) [] true,
      .fetchBlock ["X1:GW"] (around2 5 - 4/2 - 1) (around2 5 + 4/2 + 1),
      .scanChannel "X1:GW",
      .plotChannel "X1:GW",
      .saveFeatures "X1:GW" false,
      .writePage "Network" (around2 5) ["X1:GW"] true,
      .writePage "Network" (around2 5) ["X1:GW"] false] }

/-- The correlation discipline of a trace: every feature save records the
presence of the matched filter, no channel is cross-correlated without a
matched filter, and with a matched filter every saved channel was
cross-correlated. -/
def CorrOk (correlate : Bool) (events : List Event) : Prop :=
  (∀ c b, Event.saveFeatures c b ∈ events → b = correlate) ∧
  (correlate = false → ∀ c, Event.crossCorrelate c ∉ events) ∧
  (correlate = true → ∀ c b, Event.saveFeatures c b ∈ events →
      Event.crossCorrelate c ∈ events)

/-- Concrete arguments with correlation enabled. -/
def argsW2 : Args :=
  { argsW with disable_correlation := false }

/-- A concrete `[primary]` section of duration 32. -/
def primaryW : PrimaryChannelList :=
  { channelName := "X1:PRIMARY", duration := 32, fftlength := 8, length := 2,
    flow := 4, resample := none, frametype := none, source := none }

/-- A concrete configuration with a `[primary]` section and one block. -/
def cfgW2 : OmegaConfig :=
  { primarySection := some primaryW, blocks := [blockW] }

/-- The page/table-of-contents invariant of the driver loop: every page
written so far listed exactly the channels handled before it, and the
current table of contents lists exactly the channels handled so far. -/
def PageInv (st : ScanState) : Prop :=
  WP [] st.events ∧
  (tocChannels st.analyzed).Perm (handledChannels st.events)

/-- A concrete checkpoint record listing `chanW`. -/
def recordC : CheckpointRecord :=
  { colnames := ["Channel", "Standard Deviation"],
    channelColumn := ["X1:GW"] }

/-- The literal reading of C5: in a completed run, EVERY block whose
channels are not all already completed has a batched fetch in the trace;
and a block with a (truthy) checked, inactive state flag is skipped
whole. -/
def claimC5Literal (args : Args) (cfg : OmegaConfig) (env : Env) : Prop :=
  ∀ r, omega_main args cfg env = Except.ok r →
    (∀ b ∈ cfg.blocks,
      ((b.channels.map OmegaChannel.name).all
        (fun c => c ∈ completedOf args env)) = false →
      ∃ s e, Event.fetchBlock (b.channels.map OmegaChannel.name) s e ∈
        r.events) ∧
    (∀ b ∈ cfg.blocks, ∀ f, b.flag = some f → f ≠ "" →
      args.ignore_state_flags = false →
      env.check_flag f (gpsOf args) b.duration 1 = false →
      ∀ st, processBlock args env (initScan args cfg).2 (completedOf args env)
        cfg.blocks (ifoOf args) (gpsOf args) st b =
        { st with events := st.events ++ [.queryFlag f, .skipBlock b.key] })

/-- A concrete block guarded by a state flag. -/
def blockF : OmegaChannelList :=
  { blockW with key := "FLG", flag := some "X1:DMT-ANALYSIS_READY:1" }

/-- A concrete configuration whose only block is flag-guarded. -/
def cfgC5 : OmegaConfig :=
  { primarySection := none, blocks := [blockF] }

/-- A concrete environment whose state flag is never active. -/
def envC5 : Env :=
  { envW with check_flag := fun _ _ _ _ => false }

/-- Claim C4's incremental-rewrite discipline: whenever an event handles a
channel (a checkpoint restore or a feature save), the very next event of
the trace is a page write with auto-refresh on whose table of contents
lists exactly the channels handled so far; `acc` is the channels handled
before the trace starts. -/
def NP (acc : List String) (ifo : String) (gps : ℚ) : List Event → Prop
  | [] => True
  | e :: es =>
    (hch e ≠ [] → ∃ toc rest, es = Event.writePage ifo gps toc true :: rest ∧
      toc.Perm (acc ++ hch e)) ∧
    NP (acc ++ hch e) ifo gps es

/-! ## Theorems -/

theorem qfloor_eq_floor (q : ℚ) : qfloor q = ⌊q⌋ := by
  rw [Rat.floor_def, qfloor, Int.fdiv_eq_ediv _ (by positivity)]

theorem qceil_eq_ceil (q : ℚ) : qceil q = ⌈q⌉ := by
  rw [qceil, qfloor_eq_floor, Int.floor_neg, neg_neg]

theorem qfloor_le (q : ℚ) : (qfloor q : ℚ) ≤ q := by
  rw [qfloor_eq_floor]; exact Int.floor_le q

theorem le_qceil (q : ℚ) : q ≤ (qceil q : ℚ) := by
  rw [qceil_eq_ceil]; exact Int.le_ceil q

theorem qfloor_mono {a b : ℚ} (h : a ≤ b) : qfloor a ≤ qfloor b := by
  rw [qfloor_eq_floor, qfloor_eq_floor]; exact Int.floor_le_floor h

theorem trueRuns_sound :
    ∀ (bs : List Bool) (i s e : ℕ), (s, e) ∈ trueRuns i bs →
      i ≤ s ∧ s < e ∧ bs.get? (s - i) = some true := by
  intro bs
  induction bs with
  | nil => intro i s e h; simp [trueRuns] at h
  | cons b bs ih =>
    intro i s e h
    by_cases hb : b
    · subst hb
      rw [trueRuns] at h
      simp only [if_true] at h
      cases hL : trueRuns (i + 1) bs with
      | nil =>
        rw [hL] at h
        simp only [List.mem_singleton, Prod.mk.injEq] at h
        obtain ⟨hs, he⟩ := h
        subst hs; subst he
        simp
      | cons p rest =>
        obtain ⟨s', e'⟩ := p
        rw [hL] at h
        have hmem : (s', e') ∈ trueRuns (i + 1) bs := by
          rw [hL]; exact List.mem_cons_self _ _
        obtain ⟨hs'1, hs'2, hs'3⟩ := ih (i + 1) s' e' hmem
        have tail_case : ∀ s e : ℕ, (s, e) ∈ trueRuns (i + 1) bs →
            i ≤ s ∧ s < e ∧ (true :: bs).get? (s - i) = some true := by
          intro s e hm
          obtain ⟨h1, h2, h3⟩ := ih (i + 1) s e hm
          refine ⟨by omega, h2, ?_⟩
          obtain ⟨k, hk⟩ : ∃ k, s - i = k + 1 := ⟨s - i - 1, by omega⟩
          rw [hk]
          have : k = s - (i + 1) := by omega
          rw [List.get?_cons_succ, this]
          exact h3
        by_cases hcase : s' = i + 1
        · simp only [hcase, if_true, List.mem_cons, Prod.mk.injEq] at h
          rcases h with ⟨hs, he⟩ | h
          · subst hs; subst he
            exact ⟨le_refl _, by omega, by simp⟩
          · exact tail_case s e (by rw [hL]; exact List.mem_cons_of_mem _ h)
        · simp only [hcase, if_false, List.mem_cons, Prod.mk.injEq] at h
          rcases h with ⟨hs, he⟩ | h
          · subst hs; subst he
            exact ⟨le_refl _, by omega, by simp⟩
          · rcases h with ⟨hs, he⟩ | h
            · exact tail_case s e (by rw [hs, he]; exact hmem)
            · exact tail_case s e (by rw [hL]; exact List.mem_cons_of_mem _ h)
    · simp only [Bool.not_eq_true] at hb
      subst hb
      rw [trueRuns] at h
      rw [if_neg (by decide)] at h
      obtain ⟨h1, h2, h3⟩ := ih (i + 1) s e h
      refine ⟨by omega, h2, ?_⟩
      obtain ⟨k, hk⟩ : ∃ k, s - i = k + 1 := ⟨s - i - 1, by omega⟩
      rw [hk]
      have : k = s - (i + 1) := by omega
      rw [List.get?_cons_succ, this]
      exact h3

theorem trueRuns_cons_false (i : ℕ) (bs : List Bool) :
    trueRuns i (false :: bs) = trueRuns (i + 1) bs := rfl

theorem trueRuns_cons_true_nil {i : ℕ} {bs : List Bool}
    (h : trueRuns (i + 1) bs = []) :
    trueRuns i (true :: bs) = [(i, i + 1)] := by
  rw [trueRuns, if_pos rfl, h]

theorem trueRuns_cons_true_cons {i s e : ℕ} {bs : List Bool}
    {rest : List (ℕ × ℕ)} (h : trueRuns (i + 1) bs = (s, e) :: rest) :
    trueRuns i (true :: bs) =
      if s = i + 1 then (i, e) :: rest else (i, i + 1) :: (s, e) :: rest := by
  rw [trueRuns, if_pos rfl, h]

theorem trueRuns_cover :
    ∀ (bs : List Bool) (i j : ℕ), bs.get? j = some true →
      ∃ r ∈ trueRuns i bs, r.1 ≤ i + j ∧ i + j < r.2 := by
  intro bs
  induction bs with
  | nil => intro i j h; simp at h
  | cons b bs ih =>
    intro i j h
    cases j with
    | zero =>
      simp only [List.get?_cons_zero, Option.some.injEq] at h
      subst h
      cases hL : trueRuns (i + 1) bs with
      | nil =>
        rw [trueRuns_cons_true_nil hL]
        exact ⟨(i, i + 1), List.mem_singleton.mpr rfl, by omega, by omega⟩
      | cons p rest =>
        obtain ⟨s', e'⟩ := p
        obtain ⟨h1, h2, _⟩ := trueRuns_sound bs (i + 1) s' e'
          (by rw [hL]; exact List.mem_cons_self _ _)
        rw [trueRuns_cons_true_cons hL]
        by_cases hcase : s' = i + 1
        · rw [if_pos hcase]
          exact ⟨(i, e'), List.mem_cons_self _ _, by omega, by omega⟩
        · rw [if_neg hcase]
          exact ⟨(i, i + 1), List.mem_cons_self _ _, by omega, by omega⟩
    | succ j =>
      rw [List.get?_cons_succ] at h
      obtain ⟨r, hr, hr1, hr2⟩ := ih (i + 1) j h
      have hidx : i + (j + 1) = i + 1 + j := by omega
      cases hb : b
      · rw [trueRuns_cons_false, hidx]
        exact ⟨r, hr, hr1, hr2⟩
      · cases hL : trueRuns (i + 1) bs with
        | nil => rw [hL] at hr; simp at hr
        | cons p rest =>
          obtain ⟨s', e'⟩ := p
          rw [hL] at hr
          rw [trueRuns_cons_true_cons hL, hidx]
          rcases List.mem_cons.mp hr with hhead | htail
          · by_cases hcase : s' = i + 1
            · rw [if_pos hcase]
              refine ⟨(i, e'), List.mem_cons_self _ _, by omega, ?_⟩
              have : r.2 = e' := by rw [hhead]
              omega
            · rw [if_neg hcase]
              exact ⟨r, List.mem_cons_of_mem _
                (by rw [hhead]; exact List.mem_cons_self _ _), hr1, hr2⟩
          · by_cases hcase : s' = i + 1
            · rw [if_pos hcase]
              exact ⟨r, List.mem_cons_of_mem _ htail, hr1, hr2⟩
            · rw [if_neg hcase]
              exact ⟨r, List.mem_cons_of_mem _ (List.mem_cons_of_mem _ htail),
                hr1, hr2⟩

theorem trueRuns_sorted :
    ∀ (bs : List Bool) (i : ℕ),
      (trueRuns i bs).Pairwise (fun a b => a.1 < b.1) := by
  intro bs
  induction bs with
  | nil => intro i; simp [trueRuns]
  | cons b bs ih =>
    intro i
    have hge : ∀ x ∈ trueRuns (i + 1) bs, i + 1 ≤ x.1 := by
      intro x hx
      obtain ⟨h1, _, _⟩ := trueRuns_sound bs (i + 1) x.1 x.2 (by simpa using hx)
      exact h1
    cases hb : b
    · rw [trueRuns_cons_false]
      exact ih (i + 1)
    · cases hL : trueRuns (i + 1) bs with
      | nil => rw [trueRuns_cons_true_nil hL]; simp
      | cons p rest =>
        obtain ⟨s', e'⟩ := p
        have hP := ih (i + 1)
        rw [hL] at hP
        rw [hL] at hge
        rw [trueRuns_cons_true_cons hL]
        by_cases hcase : s' = i + 1
        · rw [if_pos hcase]
          refine List.Pairwise.cons ?_ (List.pairwise_cons.mp hP).2
          intro x hx
          have := hge x (List.mem_cons_of_mem _ hx)
          omega
        · rw [if_neg hcase]
          refine List.Pairwise.cons ?_ hP
          intro x hx
          have := hge x hx
          omega

theorem coalesceAux_cons (cur b : ℚ × ℚ) (rest : List (ℚ × ℚ)) :
    coalesceAux cur (b :: rest) =
      if b.1 ≤ cur.2 then coalesceAux (cur.1, max cur.2 b.2) rest
      else cur :: coalesceAux b rest := rfl

theorem coalesceAux_cover :
    ∀ (l : List (ℚ × ℚ)) (cur : ℚ × ℚ),
      (∀ x ∈ l, cur.1 ≤ x.1) → l.Pairwise (fun a b => a.1 ≤ b.1) →
      ∀ x ∈ cur :: l, ∃ out ∈ coalesceAux cur l, out.1 ≤ x.1 ∧ x.2 ≤ out.2 := by
  intro l
  induction l with
  | nil =>
    intro cur _ _ x hx
    rw [List.mem_singleton] at hx
    subst hx
    exact ⟨x, List.mem_singleton.mpr rfl, le_refl _, le_refl _⟩
  | cons b rest ih =>
    intro cur hcur hsort x hx
    rw [coalesceAux_cons]
    by_cases hb : b.1 ≤ cur.2
    · rw [if_pos hb]
      have hcur' : ∀ y ∈ rest, (cur.1, max cur.2 b.2).1 ≤ y.1 := by
        intro y hy
        exact hcur y (List.mem_cons_of_mem _ hy)
      have hsort' := (List.pairwise_cons.mp hsort).2
      rcases List.mem_cons.mp hx with hxc | hx'
      · obtain ⟨out, hout, ho1, ho2⟩ := ih (cur.1, max cur.2 b.2) hcur' hsort'
          (cur.1, max cur.2 b.2) (List.mem_cons_self _ _)
        subst hxc
        exact ⟨out, hout, ho1, le_trans (le_max_left _ _) ho2⟩
      rcases List.mem_cons.mp hx' with hxb | hxr
      · obtain ⟨out, hout, ho1, ho2⟩ := ih (cur.1, max cur.2 b.2) hcur' hsort'
          (cur.1, max cur.2 b.2) (List.mem_cons_self _ _)
        subst hxb
        exact ⟨out, hout, le_trans ho1 (hcur x (List.mem_cons_self _ _)),
          le_trans (le_max_right _ _) ho2⟩
      · exact ih (cur.1, max cur.2 b.2) hcur' hsort' x (List.mem_cons_of_mem _ hxr)
    · rw [if_neg hb]
      rcases List.mem_cons.mp hx with hxc | hx'
      · subst hxc
        exact ⟨x, List.mem_cons_self _ _, le_refl _, le_refl _⟩
      · have hcb : ∀ y ∈ rest, b.1 ≤ y.1 := fun y hy =>
          (List.pairwise_cons.mp hsort).1 y hy
        obtain ⟨out, hout, ho1, ho2⟩ := ih b hcb (List.pairwise_cons.mp hsort).2 x hx'
        exact ⟨out, List.mem_cons_of_mem _ hout, ho1, ho2⟩

theorem coalesceAux_tight :
    ∀ (l : List (ℚ × ℚ)) (cur : ℚ × ℚ),
      ∀ out ∈ coalesceAux cur l, ∃ x ∈ cur :: l, out.1 ≤ x.1 ∧ x.2 ≤ out.2 := by
  intro l
  induction l with
  | nil =>
    intro cur out hout
    rw [coalesceAux, List.mem_singleton] at hout
    subst hout
    exact ⟨out, List.mem_singleton.mpr rfl, le_refl _, le_refl _⟩
  | cons b rest ih =>
    intro cur out hout
    rw [coalesceAux_cons] at hout
    by_cases hb : b.1 ≤ cur.2
    · rw [if_pos hb] at hout
      obtain ⟨x, hx, hx1, hx2⟩ := ih (cur.1, max cur.2 b.2) out hout
      rcases List.mem_cons.mp hx with hxc | hxr
      · refine ⟨cur, List.mem_cons_self _ _, ?_, ?_⟩
        · rw [hxc] at hx1; exact hx1
        · rw [hxc] at hx2; exact le_trans (le_max_left _ _) hx2
      · exact ⟨x, List.mem_cons_of_mem _ (List.mem_cons_of_mem _ hxr), hx1, hx2⟩
    · rw [if_neg hb] at hout
      rcases List.mem_cons.mp hout with hoc | hor
      · subst hoc
        exact ⟨out, List.mem_cons_self _ _, le_refl _, le_refl _⟩
      · obtain ⟨x, hx, hx1, hx2⟩ := ih b out hor
        exact ⟨x, List.mem_cons_of_mem _ hx, hx1, hx2⟩

theorem coalesceAux_int :
    ∀ (l : List (ℚ × ℚ)) (cur : ℚ × ℚ),
      (∃ a : ℤ, cur.1 = (a : ℚ)) → (∃ a : ℤ, cur.2 = (a : ℚ)) →
      (∀ x ∈ l, (∃ a : ℤ, x.1 = (a : ℚ)) ∧ (∃ a : ℤ, x.2 = (a : ℚ))) →
      ∀ out ∈ coalesceAux cur l,
        (∃ a : ℤ, out.1 = (a : ℚ)) ∧ (∃ a : ℤ, out.2 = (a : ℚ)) := by
  intro l
  induction l with
  | nil =>
    intro cur h1 h2 _ out hout
    rw [coalesceAux, List.mem_singleton] at hout
    subst hout
    exact ⟨h1, h2⟩
  | cons b rest ih =>
    intro cur h1 h2 hl out hout
    rw [coalesceAux_cons] at hout
    by_cases hb : b.1 ≤ cur.2
    · rw [if_pos hb] at hout
      obtain ⟨a2, ha2⟩ := h2
      obtain ⟨b2, hb2⟩ := (hl b (List.mem_cons_self _ _)).2
      refine ih (cur.1, max cur.2 b.2) h1 ⟨max a2 b2, ?_⟩
        (fun x hx => hl x (List.mem_cons_of_mem _ hx)) out hout
      rw [ha2, hb2]
      exact (Int.cast_max).symm
    · rw [if_neg hb] at hout
      rcases List.mem_cons.mp hout with hoc | hor
      · subst hoc
        exact ⟨h1, h2⟩
      · exact ih b (hl b (List.mem_cons_self _ _)).1 (hl b (List.mem_cons_self _ _)).2
          (fun x hx => hl x (List.mem_cons_of_mem _ hx)) out hor

theorem coalesce_cover (l : List (ℚ × ℚ))
    (hsort : l.Pairwise (fun a b => a.1 ≤ b.1)) :
    ∀ x ∈ l, ∃ out ∈ coalesce l, out.1 ≤ x.1 ∧ x.2 ≤ out.2 := by
  cases l with
  | nil => intro x hx; simp at hx
  | cons a rest =>
    intro x hx
    exact coalesceAux_cover rest a (List.pairwise_cons.mp hsort).1
      (List.pairwise_cons.mp hsort).2 x hx

theorem coalesce_tight (l : List (ℚ × ℚ)) :
    ∀ out ∈ coalesce l, ∃ x ∈ l, out.1 ≤ x.1 ∧ x.2 ≤ out.2 := by
  cases l with
  | nil => intro out hout; simp [coalesce] at hout
  | cons a rest => exact coalesceAux_tight rest a

theorem coalesce_int (l : List (ℚ × ℚ))
    (hl : ∀ x ∈ l, (∃ a : ℤ, x.1 = (a : ℚ)) ∧ (∃ a : ℤ, x.2 = (a : ℚ))) :
    ∀ out ∈ coalesce l,
      (∃ a : ℤ, out.1 = (a : ℚ)) ∧ (∃ a : ℤ, out.2 = (a : ℚ)) := by
  cases l with
  | nil => intro out hout; simp [coalesce] at hout
  | cons a rest =>
    exact coalesceAux_int rest a (hl a (List.mem_cons_self _ _)).1
      (hl a (List.mem_cons_self _ _)).2
      (fun x hx => hl x (List.mem_cons_of_mem _ hx))

theorem to_segmentlist_roundSeg_sorted (series : TimeSeriesQ) (threshold : ℚ)
    (hdt : 0 ≤ series.dt) :
    (((to_segmentlist (seriesGT series threshold)).map roundSeg)).Pairwise
      (fun a b => a.1 ≤ b.1) := by
  rw [to_segmentlist, List.map_map]
  refine List.Pairwise.map _ ?_ (trueRuns_sorted (seriesGT series threshold).value 0)
  intro a b hab
  simp only [Function.comp_apply, roundSeg]
  have hcast : ((a.1 : ℚ)) ≤ (b.1 : ℚ) := by
    exact_mod_cast le_of_lt hab
  have : (seriesGT series threshold).t0 + a.1 * (seriesGT series threshold).dt ≤
      (seriesGT series threshold).t0 + b.1 * (seriesGT series threshold).dt := by
    have hdt' : (0 : ℚ) ≤ (seriesGT series threshold).dt := hdt
    nlinarith
  exact_mod_cast qfloor_mono this

/-- C8 (amended): `get_segments(series, threshold, name)` returns a
data-quality flag whose active segments are the times where the series
value strictly exceeds the threshold, rounded outward to inclusive integer
boundaries and merged: every strictly-exceeding sample time is covered by
an active segment, every active segment contains a strictly-exceeding
sample time, and all active segment boundaries are integers; the flag is
named by the `name` argument when a non-empty one is given, otherwise by
the series' own name. -/
theorem get_segments_amended_spec (series : TimeSeriesQ) (threshold : ℚ)
    (name : Option String) (hdt : 0 < series.dt) :
    (∀ j : ℕ, ∀ v : ℚ, series.value.get? j = some v → threshold < v →
       ∃ seg ∈ (get_segments series threshold name).active,
         seg.1 ≤ series.t0 + j * series.dt ∧
         series.t0 + j * series.dt < seg.2) ∧
    (∀ seg ∈ (get_segments series threshold name).active,
       (∃ j : ℕ, ∃ v : ℚ, series.value.get? j = some v ∧ threshold < v ∧
          seg.1 ≤ series.t0 + j * series.dt ∧
          series.t0 + j * series.dt < seg.2) ∧
       (∃ a : ℤ, seg.1 = (a : ℚ)) ∧ (∃ a : ℤ, seg.2 = (a : ℚ))) ∧
    (∀ n, name = some n → n ≠ "" →
       (get_segments series threshold name).name = n) ∧
    (name = none → (get_segments series threshold name).name = series.name) := by
  have hactive : (get_segments series threshold name).active =
      coalesce ((to_segmentlist (seriesGT series threshold)).map roundSeg) := rfl
  have hsorted := to_segmentlist_roundSeg_sorted series threshold (le_of_lt hdt)
  refine ⟨?_, ?_, ?_, ?_⟩
  · -- every exceeding sample time is covered
    intro j v hjv hthr
    have hbs : (seriesGT series threshold).value.get? j = some true := by
      show (series.value.map (fun v => decide (threshold < v))).get? j = some true
      rw [List.get?_map, hjv]
      simp [hthr]
    obtain ⟨r, hr, hr1, hr2⟩ := trueRuns_cover _ 0 j hbs
    rw [Nat.zero_add] at hr1 hr2
    have hxmem : roundSeg ((seriesGT series threshold).t0 +
          r.1 * (seriesGT series threshold).dt,
        (seriesGT series threshold).t0 + r.2 * (seriesGT series threshold).dt) ∈
        (to_segmentlist (seriesGT series threshold)).map roundSeg := by
      exact List.mem_map_of_mem _ (List.mem_map_of_mem _ hr)
    obtain ⟨out, hout, ho1, ho2⟩ := coalesce_cover _ hsorted _ hxmem
    rw [← hactive] at hout
    refine ⟨out, hout, ?_, ?_⟩
    · refine le_trans ho1 ?_
      show ((qfloor (series.t0 + r.1 * series.dt) : ℤ) : ℚ) ≤ _
      refine le_trans (qfloor_le _) ?_
      have : ((r.1 : ℚ)) ≤ (j : ℚ) := by exact_mod_cast hr1
      nlinarith [le_of_lt hdt]
    · refine lt_of_lt_of_le ?_ ho2
      show _ < ((qceil (series.t0 + r.2 * series.dt) : ℤ) : ℚ)
      refine lt_of_lt_of_le ?_ (le_qceil _)
      have : ((j : ℚ)) < (r.2 : ℚ) := by exact_mod_cast hr2
      nlinarith
  · -- every active segment contains an exceeding sample time,
    -- and has integer boundaries
    intro seg hseg
    rw [hactive] at hseg
    constructor
    · obtain ⟨x, hx, hx1, hx2⟩ := coalesce_tight _ seg hseg
      obtain ⟨y, hy, hyx⟩ := List.mem_map.mp hx
      obtain ⟨r, hr, hry⟩ := List.mem_map.mp hy
      obtain ⟨rs, re⟩ := r
      obtain ⟨_, hrlt, hrtrue⟩ := trueRuns_sound _ 0 rs re hr
      rw [Nat.sub_zero] at hrtrue
      have hval : ∃ v, series.value.get? rs = some v ∧ threshold < v := by
        have : (series.value.map (fun v => decide (threshold < v))).get? rs =
            some true := hrtrue
        rw [List.get?_map] at this
        cases hv : series.value.get? rs with
        | none => rw [hv] at this; simp at this
        | some v =>
          rw [hv] at this
          simp only [Option.map_some', Option.some.injEq, decide_eq_true_eq] at this
          exact ⟨v, rfl, this⟩
      obtain ⟨v, hv, hthr⟩ := hval
      refine ⟨rs, v, hv, hthr, ?_, ?_⟩
      · refine le_trans hx1 ?_
        rw [← hyx, ← hry]
        show ((qfloor (series.t0 + rs * series.dt) : ℤ) : ℚ) ≤ _
        exact qfloor_le _
      · refine lt_of_lt_of_le ?_ ((by rw [← hyx, ← hry]; exact le_qceil _ :
          (series.t0 + re * series.dt : ℚ) ≤ x.2).trans hx2)
        have : ((rs : ℚ)) < (re : ℚ) := by exact_mod_cast hrlt
        nlinarith
    · refine coalesce_int _ ?_ seg hseg
      intro x hx
      obtain ⟨y, _, hyx⟩ := List.mem_map.mp hx
      exact ⟨⟨qfloor y.1, by rw [← hyx]; rfl⟩, ⟨qceil y.2, by rw [← hyx]; rfl⟩⟩
  · intro n hn hne
    show pyOrStr name series.name = n
    rw [hn, pyOrStr, if_neg hne]
  · intro hn
    show pyOrStr name series.name = series.name
    rw [hn, pyOrStr]

/-- C7: `get_fringe_frequency` returns the pointwise absolute value of
`multiplier * (2 / 1.064) * sample_rate *` the Savitzky-Golay first
derivative (window length 5, polynomial order 2) of the input, with unit
Hz and the input's metadata otherwise kept; every sample of the result is
nonnegative, and the default multiplier is 2.0. -/
theorem get_fringe_frequency_spec (savgol_filter : List ℚ → ℕ → ℕ → ℕ → List ℚ)
    (series : TimeSeriesQ) (multiplier : ℚ) :
    (get_fringe_frequency savgol_filter series multiplier).value =
      (savgol_filter series.value 5 2 1).map
        (fun v => |multiplier * (2 / (1.064 : ℚ)) * series.sample_rate * v|) ∧
    (get_fringe_frequency savgol_filter series multiplier).unit = "Hz" ∧
    (get_fringe_frequency savgol_filter series multiplier).sample_rate =
      series.sample_rate ∧
    (get_fringe_frequency savgol_filter series multiplier).t0 = series.t0 ∧
    (get_fringe_frequency savgol_filter series multiplier).dt = series.dt ∧
    (∀ x ∈ (get_fringe_frequency savgol_filter series multiplier).value, 0 ≤ x) ∧
    get_fringe_frequencyDefault savgol_filter series =
      get_fringe_frequency savgol_filter series 2 := by
  refine ⟨?_, rfl, rfl, rfl, rfl, ?_, rfl⟩
  · show (savgol_filter series.value 5 2 1).map _ =
      (savgol_filter series.value 5 2 1).map _
    refine List.map_congr_left ?_
    intro v _
    have h : multiplier * 2 / (1.064 : ℚ) * v * series.sample_rate =
        multiplier * (2 / (1.064 : ℚ)) * series.sample_rate * v := by ring
    rw [h]
  · intro x hx
    obtain ⟨v, _, hv⟩ := List.mem_map.mp hx
    rw [← hv]
    exact abs_nonneg _

/-- C8 (counterexample): with `round=True` the active segments are rounded
outward to integer boundaries, so time 0 is active although the sample
covering it starts only at 1/2; and a given-but-empty `name` argument is
falsy in Python, so the flag falls back to the series' own name. -/
theorem claimC8Literal_cex :
    ¬ claimC8Literal serCex 0 none ∧ ¬ claimC8Literal serCex 0 (some "") := by
  constructor
  · rintro ⟨h1, -, -⟩
    have h := h1 0
    have hs : sampleExceeds serCex 0 0 = false := by
      rw [sampleExceeds]
      show (List.range 1).any _ = false
      rw [show List.range 1 = [0] from rfl]
      simp only [List.any_cons, List.any_nil, Bool.or_false]
      simp
      intro h0 _
      exact absurd h0 (by norm_num [serCex])
    have hact : (get_segments serCex 0 none).active =
        [(((qfloor (serCex.t0 + ((0 : ℕ) : ℚ) * serCex.dt) : ℤ) : ℚ),
          ((qceil (serCex.t0 + ((0 + 1 : ℕ) : ℚ) * serCex.dt) : ℤ) : ℚ))] := rfl
    have hf : qfloor (serCex.t0 + ((0 : ℕ) : ℚ) * serCex.dt) = 0 := by
      rw [qfloor_eq_floor]
      norm_num [serCex]
    have hc : qceil (serCex.t0 + ((0 + 1 : ℕ) : ℚ) * serCex.dt) = 2 := by
      rw [qceil_eq_ceil]
      have he : serCex.t0 + ((0 + 1 : ℕ) : ℚ) * serCex.dt = 3 / 2 := by
        norm_num [serCex]
      rw [he, Int.ceil_eq_iff]
      norm_num
    have hi : inSegs (get_segments serCex 0 none).active 0 = true := by
      rw [inSegs, hact, hf, hc]
      simp only [List.any_cons, List.any_nil, Bool.or_false]
      norm_num
    rw [hi, hs] at h
    exact absurd h (by decide)
  · rintro ⟨-, h2, -⟩
    have h := h2 "" rfl
    have : (get_segments serCex 0 (some "")).name = "X1:TEST-SER" := rfl
    rw [this] at h
    exact absurd h (by decide)

theorem get_segments_amended_spec_witness :
    (0 : ℚ) < serW.dt ∧
    ((∀ j : ℕ, ∀ v : ℚ, serW.value.get? j = some v → (0 : ℚ) < v →
       ∃ seg ∈ (get_segments serW 0 none).active,
         seg.1 ≤ serW.t0 + j * serW.dt ∧ serW.t0 + j * serW.dt < seg.2) ∧
     (∀ seg ∈ (get_segments serW 0 none).active,
       (∃ j : ℕ, ∃ v : ℚ, serW.value.get? j = some v ∧ (0 : ℚ) < v ∧
          seg.1 ≤ serW.t0 + j * serW.dt ∧ serW.t0 + j * serW.dt < seg.2) ∧
       (∃ a : ℤ, seg.1 = (a : ℚ)) ∧ (∃ a : ℤ, seg.2 = (a : ℚ))) ∧
     (∀ n, (none : Option String) = some n → n ≠ "" →
        (get_segments serW 0 none).name = n) ∧
     ((none : Option String) = none →
        (get_segments serW 0 none).name = serW.name)) :=
  ⟨by decide, get_segments_amended_spec serW 0 none (by decide)⟩

theorem processChannel_checkpoint (env : Env) (correlate : Bool)
    (completed : List String) (blocks : List OmegaChannelList)
    (ifo : String) (gps : ℚ) (st : ScanState) (c : OmegaChannel)
    (hmem : c.name ∈ completed) :
    processChannel env correlate completed blocks ifo gps st c =
      { analyzed := update_toc st.analyzed (blockNameOf blocks c) c.name
        events := st.events ++
          [.loadCheckpoint c.name (completed.indexOf c.name) correlate,
           .writePage ifo gps
             (tocChannels (update_toc st.analyzed (blockNameOf blocks c) c.name))
             true] } := by
  rw [processChannel, if_pos hmem]

theorem processChannel_error (env : Env) (correlate : Bool)
    (completed : List String) (blocks : List OmegaChannelList)
    (ifo : String) (gps : ℚ) (st : ScanState) (c : OmegaChannel)
    (hmem : c.name ∉ completed) (e : ScanExc)
    (hscan : env.scan c.name = .error e) :
    processChannel env correlate completed blocks ifo gps st c =
      { st with events := st.events ++
          [.scanChannel c.name, .skipChannel c.name] } := by
  rw [processChannel, if_neg hmem, hscan]

theorem processChannel_none (env : Env) (correlate : Bool)
    (completed : List String) (blocks : List OmegaChannelList)
    (ifo : String) (gps : ℚ) (st : ScanState) (c : OmegaChannel)
    (hmem : c.name ∉ completed) (hscan : env.scan c.name = .ok none) :
    processChannel env correlate completed blocks ifo gps st c =
      { st with events := st.events ++
          [.scanChannel c.name, .notSignificant c.name] } := by
  rw [processChannel, if_neg hmem, hscan]

theorem processChannel_some (env : Env) (correlate : Bool)
    (completed : List String) (blocks : List OmegaChannelList)
    (ifo : String) (gps : ℚ) (st : ScanState) (c : OmegaChannel)
    (hmem : c.name ∉ completed) (n : ℕ) (hscan : env.scan c.name = .ok (some n)) :
    processChannel env correlate completed blocks ifo gps st c =
      { analyzed := update_toc st.analyzed (blockNameOf blocks c) c.name
        events := st.events ++
          [.scanChannel c.name, .plotChannel c.name] ++
          (if correlate then [.crossCorrelate c.name] else []) ++
          [.saveFeatures c.name correlate,
           .writePage ifo gps
             (tocChannels (update_toc st.analyzed (blockNameOf blocks c) c.name))
             true] } := by
  rw [processChannel, if_neg hmem, hscan]

theorem processBlockChannels_eq (env : Env) (correlate : Bool)
    (completed : List String) (blocks : List OmegaChannelList)
    (ifo : String) (gps : ℚ) (st : ScanState) (block : OmegaChannelList) :
    processBlockChannels env correlate completed blocks ifo gps st block =
      block.channels.foldl (processChannel env correlate completed blocks ifo gps)
        (if !((block.channels.map OmegaChannel.name).all
            (fun c => c ∈ completed)) then
          { st with events := st.events ++
              [.fetchBlock (block.channels.map OmegaChannel.name)
                (gps - block.duration/2 - 1) (gps + block.duration/2 + 1)] }
        else st) := rfl

theorem processBlock_eq (args : Args) (env : Env) (correlate : Bool)
    (completed : List String) (blocks : List OmegaChannelList)
    (ifo : String) (gps : ℚ) (st : ScanState) (block : OmegaChannelList) :
    processBlock args env correlate completed blocks ifo gps st block =
      if (match block.flag with
          | some f => decide (f ≠ "")
          | none => false) && !args.ignore_state_flags then
        if !(env.check_flag (block.flag.getD "") gps block.duration 1) then
          { st with events := st.events ++
              [.queryFlag (block.flag.getD ""), .skipBlock block.key] }
        else
          processBlockChannels env correlate completed blocks ifo gps
            { st with events := st.events ++
                [.queryFlag (block.flag.getD "")] } block
      else
        processBlockChannels env correlate completed blocks ifo gps st block := rfl

theorem foldl_preserve {α : Type} {P : ScanState → Prop}
    {f : ScanState → α → ScanState} :
    ∀ (l : List α), (∀ st a, a ∈ l → P st → P (f st a)) →
      ∀ st, P st → P (l.foldl f st) := by
  intro l
  induction l with
  | nil => intro _ st h; exact h
  | cons a l ih =>
    intro hstep st h
    rw [List.foldl_cons]
    exact ih (fun st b hb => hstep st b (List.mem_cons_of_mem _ hb)) _
      (hstep st a (List.mem_cons_self _ _) h)

theorem processChannel_fetchOk (args : Args) (cfg : OmegaConfig) (env : Env)
    (correlate : Bool) (completed : List String)
    (blocks : List OmegaChannelList) (ifo : String) (gps : ℚ)
    (st : ScanState) (c : OmegaChannel)
    (hst : ∀ ev ∈ st.events, FetchOk args cfg ev) :
    ∀ ev ∈ (processChannel env correlate completed blocks ifo gps st c).events,
      FetchOk args cfg ev := by
  intro ev hev
  by_cases hmem : c.name ∈ completed
  · rw [processChannel_checkpoint env correlate completed blocks ifo gps st c
      hmem] at hev
    simp only [List.mem_append, List.mem_cons, List.not_mem_nil, or_false] at hev
    rcases hev with h | rfl | rfl
    · exact hst ev h
    · trivial
    · trivial
  · cases hscan : env.scan c.name with
    | error e =>
      rw [processChannel_error env correlate completed blocks ifo gps st c
        hmem e hscan] at hev
      simp only [List.mem_append, List.mem_cons, List.not_mem_nil, or_false] at hev
      rcases hev with h | rfl | rfl
      · exact hst ev h
      · trivial
      · trivial
    | ok o =>
      cases o with
      | none =>
        rw [processChannel_none env correlate completed blocks ifo gps st c
          hmem hscan] at hev
        simp only [List.mem_append, List.mem_cons, List.not_mem_nil, or_false] at hev
        rcases hev with h | rfl | rfl
        · exact hst ev h
        · trivial
        · trivial
      | some n =>
        rw [processChannel_some env correlate completed blocks ifo gps st c
          hmem n hscan] at hev
        by_cases hc : correlate
        · rw [if_pos hc] at hev
          simp only [List.mem_append, List.mem_cons, List.not_mem_nil,
            or_false] at hev
          rcases hev with ((h | rfl | rfl) | rfl) | rfl | rfl
          · exact hst ev h
          all_goals trivial
        · rw [if_neg hc] at hev
          simp only [List.mem_append, List.mem_cons, List.not_mem_nil,
            or_false, List.append_nil] at hev
          rcases hev with (h | rfl | rfl) | rfl | rfl
          · exact hst ev h
          all_goals trivial

theorem processBlock_fetchOk (args : Args) (cfg : OmegaConfig) (env : Env)
    (correlate : Bool) (completed : List String)
    (blocks : List OmegaChannelList) (st : ScanState) (block : OmegaChannelList)
    (hblock : block ∈ cfg.blocks)
    (hst : ∀ ev ∈ st.events, FetchOk args cfg ev) :
    ∀ ev ∈ (processBlock args env correlate completed blocks (ifoOf args)
        (gpsOf args) st block).events,
      FetchOk args cfg ev := by
  have hchan : ∀ (st' : ScanState),
      (∀ ev ∈ st'.events, FetchOk args cfg ev) →
      ∀ ev ∈ (processBlockChannels env correlate completed blocks (ifoOf args)
          (gpsOf args) st' block).events, FetchOk args cfg ev := by
    intro st' hst' ev hev
    rw [processBlockChannels_eq] at hev
    refine foldl_preserve (P := fun s => ∀ ev ∈ s.events, FetchOk args cfg ev)
      block.channels
      (fun s c _ hs => processChannel_fetchOk args cfg env correlate completed
        blocks (ifoOf args) (gpsOf args) s c hs) _ ?_ ev hev
    by_cases hall : !((block.channels.map OmegaChannel.name).all
        (fun c => c ∈ completed))
    · rw [if_pos hall]
      intro ev' hev'
      rcases List.mem_append.mp hev' with h | h
      · exact hst' ev' h
      · rcases List.mem_cons.mp h with h | h
        · subst h
          refine ⟨block, hblock, rfl, rfl, rfl⟩
        · simp at h
    · rw [if_neg hall]
      exact hst'
  rw [processBlock_eq]
  by_cases hflag : (match block.flag with
      | some f => decide (f ≠ "")
      | none => false) && !args.ignore_state_flags
  · rw [if_pos hflag]
    by_cases hactive : !(env.check_flag (block.flag.getD "") (gpsOf args)
        block.duration 1)
    · rw [if_pos hactive]
      intro ev hev
      rcases List.mem_append.mp hev with h | h
      · exact hst ev h
      · rcases List.mem_cons.mp h with h | h
        · subst h; trivial
        · rcases List.mem_cons.mp h with h | h
          · subst h; trivial
          · simp at h
    · rw [if_neg hactive]
      refine hchan _ ?_
      intro ev hev
      rcases List.mem_append.mp hev with h | h
      · exact hst ev h
      · rcases List.mem_cons.mp h with h | h
        · subst h; trivial
        · simp at h
  · rw [if_neg hflag]
    exact hchan st hst

theorem initScan_disabled (args : Args) (cfg : OmegaConfig)
    (h : disable_correlationOf args cfg = true) :
    initScan args cfg =
      ({ analyzed := [],
         events := [.writePage (ifoOf args) (gpsOf args) [] true] }, false) := by
  rw [initScan, if_pos h]

theorem initScan_enabled (args : Args) (cfg : OmegaConfig)
    (p : PrimaryChannelList) (hdc : disable_correlationOf args cfg = false)
    (hp : cfg.primarySection = some p) :
    initScan args cfg =
      ({ analyzed := [],
         events := [.writePage (ifoOf args) (gpsOf args) [] true,
           .fetchPrimary p.channelName (gpsOf args - p.duration/2 - 1)
             (gpsOf args + p.duration/2 + 1),
           .buildPrimaryFilter p.channelName] }, true) := by
  have hd : args.disable_correlation = false := by
    rw [disable_correlationOf, Bool.or_eq_false_iff] at hdc
    exact hdc.1
  rw [initScan, if_neg (by simp [hdc]), hd]
  simp only [Bool.false_eq_true, if_false, hp]
  rfl

theorem omega_main_ok_inv {args : Args} {cfg : OmegaConfig} {env : Env}
    {r : MainOk} (h : omega_main args cfg env = .ok r) :
    r = omega_main_run args cfg env ∧
    checkpointKeyError args cfg env = false := by
  rw [omega_main] at h
  by_cases hkey : checkpointKeyError args cfg env = true
  · rw [if_pos hkey] at h
    exact absurd h (by simp)
  · rw [if_neg hkey] at h
    exact ⟨(Except.ok.inj h).symm, by simpa using hkey⟩

theorem omega_main_run_events (args : Args) (cfg : OmegaConfig) (env : Env) :
    (omega_main_run args cfg env).events =
      (cfg.blocks.foldl (processBlock args env (initScan args cfg).2
        (completedOf args env) cfg.blocks (ifoOf args) (gpsOf args))
        (initScan args cfg).1).events ++
      [if (cfg.blocks.foldl (processBlock args env (initScan args cfg).2
          (completedOf args env) cfg.blocks (ifoOf args) (gpsOf args))
          (initScan args cfg).1).analyzed ≠ [] then
        Event.writePage (ifoOf args) (gpsOf args)
          (tocChannels (cfg.blocks.foldl (processBlock args env
            (initScan args cfg).2 (completedOf args env) cfg.blocks
            (ifoOf args) (gpsOf args)) (initScan args cfg).1).analyzed) false
      else
        Event.writeNull (ifoOf args) (gpsOf args) nullReason] := rfl

theorem omega_main_run_analyzed (args : Args) (cfg : OmegaConfig) (env : Env) :
    (omega_main_run args cfg env).analyzed =
      (cfg.blocks.foldl (processBlock args env (initScan args cfg).2
        (completedOf args env) cfg.blocks (ifoOf args) (gpsOf args))
        (initScan args cfg).1).analyzed := rfl

theorem initScan_fetchOk (args : Args) (cfg : OmegaConfig) :
    ∀ ev ∈ (initScan args cfg).1.events, FetchOk args cfg ev := by
  by_cases hdc : disable_correlationOf args cfg = true
  · rw [initScan_disabled args cfg hdc]
    intro ev hev
    rcases List.mem_singleton.mp hev with rfl
    trivial
  · have hdc' : disable_correlationOf args cfg = false := by simpa using hdc
    have hd : args.disable_correlation = false := by
      rw [disable_correlationOf, Bool.or_eq_false_iff] at hdc'
      exact hdc'.1
    cases hp : cfg.primarySection with
    | none =>
      exfalso
      rw [disable_correlationOf, Bool.or_eq_false_iff] at hdc'
      rw [hp] at hdc'
      exact absurd hdc'.2 (by simp)
    | some p =>
      rw [initScan_enabled args cfg p hdc' hp]
      intro ev hev
      rcases List.mem_cons.mp hev with rfl | hev
      · trivial
      rcases List.mem_cons.mp hev with rfl | hev
      · exact ⟨p, hp, hd, rfl, rfl, rfl⟩
      rcases List.mem_cons.mp hev with rfl | hev
      · trivial
      · simp at hev

/-- C2: for every channel block with configured duration `d`, and likewise
for the primary channel, every data fetch of a completed run covers
exactly `[t - d/2 - 1, t + d/2 + 1]`, where `t` is the requested GPS time
rounded to two decimal places. -/
theorem omega_main_fetch_windows (args : Args) (cfg : OmegaConfig) (env : Env)
    (r : MainOk) (h : omega_main args cfg env = Except.ok r) :
    ∀ ev ∈ r.events, FetchOk args cfg ev := by
  obtain ⟨rfl, -⟩ := omega_main_ok_inv h
  intro ev hev
  rw [omega_main_run_events] at hev
  rcases List.mem_append.mp hev with hev | hev
  · refine foldl_preserve (P := fun s => ∀ ev ∈ s.events, FetchOk args cfg ev)
      cfg.blocks
      (fun s b hb hs => processBlock_fetchOk args cfg env (initScan args cfg).2
        (completedOf args env) cfg.blocks s b hb hs)
      _ (initScan_fetchOk args cfg) ev hev
  · rcases List.mem_singleton.mp hev with rfl
    split
    · trivial
    · trivial

theorem omega_main_fetch_windows_witness :
    omega_main argsW cfgW envW = Except.ok rW ∧
    ∀ ev ∈ rW.events, FetchOk argsW cfgW ev :=
  ⟨rfl, omega_main_fetch_windows argsW cfgW envW rW rfl⟩

theorem corrOk_append_plain (correlate : Bool) (events new : List Event)
    (h : CorrOk correlate events)
    (hnew : ∀ ev ∈ new, (∀ c b, ev ≠ Event.saveFeatures c b) ∧
      (∀ c, ev ≠ Event.crossCorrelate c)) :
    CorrOk correlate (events ++ new) := by
  obtain ⟨h1, h2, h3⟩ := h
  refine ⟨?_, ?_, ?_⟩
  · intro c b hm
    rcases List.mem_append.mp hm with hm | hm
    · exact h1 c b hm
    · exact absurd rfl ((hnew _ hm).1 c b)
  · intro hc c hm
    rcases List.mem_append.mp hm with hm | hm
    · exact h2 hc c hm
    · exact absurd rfl ((hnew _ hm).2 c)
  · intro hc c b hm
    rcases List.mem_append.mp hm with hm | hm
    · exact List.mem_append.mpr (Or.inl (h3 hc c b hm))
    · exact absurd rfl ((hnew _ hm).1 c b)

theorem processChannel_corrOk (env : Env) (correlate : Bool)
    (completed : List String) (blocks : List OmegaChannelList)
    (ifo : String) (gps : ℚ) (st : ScanState) (c : OmegaChannel)
    (hst : CorrOk correlate st.events) :
    CorrOk correlate
      (processChannel env correlate completed blocks ifo gps st c).events := by
  by_cases hmem : c.name ∈ completed
  · rw [processChannel_checkpoint env correlate completed blocks ifo gps st c hmem]
    refine corrOk_append_plain correlate st.events _ hst ?_
    intro ev hev
    rcases List.mem_cons.mp hev with rfl | hev
    · exact ⟨fun c b => by simp, fun c => by simp⟩
    rcases List.mem_cons.mp hev with rfl | hev
    · exact ⟨fun c b => by simp, fun c => by simp⟩
    · simp at hev
  · cases hscan : env.scan c.name with
    | error e =>
      rw [processChannel_error env correlate completed blocks ifo gps st c
        hmem e hscan]
      refine corrOk_append_plain correlate st.events _ hst ?_
      intro ev hev
      rcases List.mem_cons.mp hev with rfl | hev
      · exact ⟨fun c b => by simp, fun c => by simp⟩
      rcases List.mem_cons.mp hev with rfl | hev
      · exact ⟨fun c b => by simp, fun c => by simp⟩
      · simp at hev
    | ok o =>
      cases o with
      | none =>
        rw [processChannel_none env correlate completed blocks ifo gps st c
          hmem hscan]
        refine corrOk_append_plain correlate st.events _ hst ?_
        intro ev hev
        rcases List.mem_cons.mp hev with rfl | hev
        · exact ⟨fun c b => by simp, fun c => by simp⟩
        rcases List.mem_cons.mp hev with rfl | hev
        · exact ⟨fun c b => by simp, fun c => by simp⟩
        · simp at hev
      | some n =>
        rw [processChannel_some env correlate completed blocks ifo gps st c
          hmem n hscan]
        obtain ⟨h1, h2, h3⟩ := hst
        cases correlate with
        | true =>
          rw [if_pos rfl]
          refine ⟨?_, ?_, ?_⟩
          · intro c' b hm
            simp only [List.mem_append] at hm
            rcases hm with ((hm | hm) | hm) | hm
            · exact h1 c' b hm
            · simp at hm
            · simp at hm
            · simp at hm
              exact hm.2
          · intro hfc
            exact absurd hfc (by simp)
          · intro _ c' b hm
            simp only [List.mem_append] at hm
            rcases hm with ((hm | hm) | hm) | hm
            · exact List.mem_append.mpr (Or.inl (List.mem_append.mpr
                (Or.inl (List.mem_append.mpr (Or.inl (h3 rfl c' b hm))))))
            · simp at hm
            · simp at hm
            · simp at hm
              simp [hm.1]
        | false =>
          rw [if_neg (by simp)]
          refine ⟨?_, ?_, ?_⟩
          · intro c' b hm
            simp only [List.mem_append] at hm
            rcases hm with ((hm | hm) | hm) | hm
            · exact h1 c' b hm
            · simp at hm
            · simp at hm
            · simp at hm
              exact hm.2
          · intro _ c' hm
            simp only [List.mem_append] at hm
            rcases hm with ((hm | hm) | hm) | hm
            · exact h2 rfl c' hm
            · simp at hm
            · simp at hm
            · simp at hm
          · intro hct
            exact absurd hct (by simp)

theorem processBlockChannels_corrOk (env : Env) (correlate : Bool)
    (completed : List String) (blocks : List OmegaChannelList)
    (ifo : String) (gps : ℚ) (st : ScanState) (block : OmegaChannelList)
    (hst : CorrOk correlate st.events) :
    CorrOk correlate
      (processBlockChannels env correlate completed blocks ifo gps st
        block).events := by
  rw [processBlockChannels_eq]
  refine foldl_preserve (P := fun s => CorrOk correlate s.events)
    block.channels
    (fun s c _ hs => processChannel_corrOk env correlate completed blocks
      ifo gps s c hs) _ ?_
  by_cases hall : !((block.channels.map OmegaChannel.name).all
      (fun c => c ∈ completed))
  · rw [if_pos hall]
    refine corrOk_append_plain correlate st.events _ hst ?_
    intro ev hev
    rcases List.mem_singleton.mp hev with rfl
    exact ⟨fun c b => by simp, fun c => by simp⟩
  · rw [if_neg hall]
    exact hst

theorem processBlock_corrOk (args : Args) (env : Env) (correlate : Bool)
    (completed : List String) (blocks : List OmegaChannelList)
    (ifo : String) (gps : ℚ) (st : ScanState) (block : OmegaChannelList)
    (hst : CorrOk correlate st.events) :
    CorrOk correlate
      (processBlock args env correlate completed blocks ifo gps st
        block).events := by
  rw [processBlock_eq]
  by_cases hflag : (match block.flag with
      | some f => decide (f ≠ "")
      | none => false) && !args.ignore_state_flags
  · rw [if_pos hflag]
    by_cases hactive : !(env.check_flag (block.flag.getD "") gps
        block.duration 1)
    · rw [if_pos hactive]
      refine corrOk_append_plain correlate st.events _ hst ?_
      intro ev hev
      rcases List.mem_cons.mp hev with rfl | hev
      · exact ⟨fun c b => by simp, fun c => by simp⟩
      rcases List.mem_cons.mp hev with rfl | hev
      · exact ⟨fun c b => by simp, fun c => by simp⟩
      · simp at hev
    · rw [if_neg hactive]
      refine processBlockChannels_corrOk env correlate completed blocks ifo gps
        _ block ?_
      refine corrOk_append_plain correlate st.events _ hst ?_
      intro ev hev
      rcases List.mem_singleton.mp hev with rfl
      exact ⟨fun c b => by simp, fun c => by simp⟩
  · rw [if_neg hflag]
    exact processBlockChannels_corrOk env correlate completed blocks ifo gps
      st block hst

theorem initScan_corrOk (args : Args) (cfg : OmegaConfig) :
    CorrOk (initScan args cfg).2 (initScan args cfg).1.events := by
  by_cases hdc : disable_correlationOf args cfg = true
  · rw [initScan_disabled args cfg hdc]
    refine ⟨?_, ?_, ?_⟩
    · intro c b hm
      simp at hm
    · intro _ c hm
      simp at hm
    · intro _ c b hm
      simp at hm
  · have hdc' : disable_correlationOf args cfg = false := by simpa using hdc
    cases hp : cfg.primarySection with
    | none =>
      exfalso
      rw [disable_correlationOf, Bool.or_eq_false_iff, hp] at hdc'
      exact absurd hdc'.2 (by simp)
    | some p =>
      rw [initScan_enabled args cfg p hdc' hp]
      refine ⟨?_, ?_, ?_⟩
      · intro c b hm
        simp at hm
      · intro h
        exact absurd h (by simp)
      · intro _ c b hm
        simp at hm

theorem processChannel_mem_mono (env : Env) (correlate : Bool)
    (completed : List String) (blocks : List OmegaChannelList)
    (ifo : String) (gps : ℚ) (st : ScanState) (c : OmegaChannel)
    (e : Event) (h : e ∈ st.events) :
    e ∈ (processChannel env correlate completed blocks ifo gps st c).events := by
  by_cases hmem : c.name ∈ completed
  · rw [processChannel_checkpoint env correlate completed blocks ifo gps st c hmem]
    exact List.mem_append.mpr (Or.inl h)
  · cases hscan : env.scan c.name with
    | error e' =>
      rw [processChannel_error env correlate completed blocks ifo gps st c
        hmem e' hscan]
      exact List.mem_append.mpr (Or.inl h)
    | ok o =>
      cases o with
      | none =>
        rw [processChannel_none env correlate completed blocks ifo gps st c
          hmem hscan]
        exact List.mem_append.mpr (Or.inl h)
      | some n =>
        rw [processChannel_some env correlate completed blocks ifo gps st c
          hmem n hscan]
        exact List.mem_append.mpr (Or.inl (List.mem_append.mpr
          (Or.inl (List.mem_append.mpr (Or.inl h)))))

theorem processBlock_mem_mono (args : Args) (env : Env) (correlate : Bool)
    (completed : List String) (blocks : List OmegaChannelList)
    (ifo : String) (gps : ℚ) (st : ScanState) (block : OmegaChannelList)
    (e : Event) (h : e ∈ st.events) :
    e ∈ (processBlock args env correlate completed blocks ifo gps st
        block).events := by
  have hchan : ∀ (st' : ScanState), e ∈ st'.events →
      e ∈ (processBlockChannels env correlate completed blocks ifo gps st'
        block).events := by
    intro st' h'
    rw [processBlockChannels_eq]
    refine foldl_preserve (P := fun s => e ∈ s.events) block.channels
      (fun s c _ hs => processChannel_mem_mono env correlate completed blocks
        ifo gps s c e hs) _ ?_
    by_cases hall : !((block.channels.map OmegaChannel.name).all
        (fun c => c ∈ completed))
    · rw [if_pos hall]
      exact List.mem_append.mpr (Or.inl h')
    · rw [if_neg hall]
      exact h'
  rw [processBlock_eq]
  by_cases hflag : (match block.flag with
      | some f => decide (f ≠ "")
      | none => false) && !args.ignore_state_flags
  · rw [if_pos hflag]
    by_cases hactive : !(env.check_flag (block.flag.getD "") gps
        block.duration 1)
    · rw [if_pos hactive]
      exact List.mem_append.mpr (Or.inl h)
    · rw [if_neg hactive]
      exact hchan _ (List.mem_append.mpr (Or.inl h))
  · rw [if_neg hflag]
    exact hchan st h

theorem omega_main_run_mem_of_init (args : Args) (cfg : OmegaConfig) (env : Env)
    (e : Event) (h : e ∈ (initScan args cfg).1.events) :
    e ∈ (omega_main_run args cfg env).events := by
  rw [omega_main_run_events]
  refine List.mem_append.mpr (Or.inl ?_)
  exact foldl_preserve (P := fun s => e ∈ s.events) cfg.blocks
    (fun s b _ hs => processBlock_mem_mono args env (initScan args cfg).2
      (completedOf args env) cfg.blocks (ifoOf args) (gpsOf args) s b e hs)
    _ h

theorem omega_main_run_corrOk (args : Args) (cfg : OmegaConfig) (env : Env) :
    CorrOk (initScan args cfg).2 (omega_main_run args cfg env).events := by
  rw [omega_main_run_events]
  refine corrOk_append_plain _ _ _ ?_ ?_
  · exact foldl_preserve (P := fun s => CorrOk (initScan args cfg).2 s.events)
      cfg.blocks
      (fun s b _ hs => processBlock_corrOk args env (initScan args cfg).2
        (completedOf args env) cfg.blocks (ifoOf args) (gpsOf args) s b hs)
      _ (initScan_corrOk args cfg)
  · intro ev hev
    rcases List.mem_singleton.mp hev with rfl
    constructor
    · intro c b
      split
      · simp
      · simp
    · intro c
      split
      · simp
      · simp

/-- C3: if cross-correlation is enabled and the configuration has a
`[primary]` section, the driver fetches the primary channel over its padded
window, builds the whitened matched filter, and every newly scanned
significant channel is cross-correlated and saved with its correlation;
if the configuration has no `[primary]` section, the run continues (no
checkpoint `KeyError` can fire) with cross-correlation disabled, so no
channel is correlated and every feature save is without correlation. -/
theorem omega_main_correlation (args : Args) (cfg : OmegaConfig) (env : Env)
    (r : MainOk) (h : omega_main args cfg env = Except.ok r) :
    (args.disable_correlation = false →
      ∀ p, cfg.primarySection = some p →
        Event.fetchPrimary p.channelName (gpsOf args - p.duration/2 - 1)
          (gpsOf args + p.duration/2 + 1) ∈ r.events ∧
        Event.buildPrimaryFilter p.channelName ∈ r.events ∧
        r.correlated = true ∧
        (∀ c b, Event.saveFeatures c b ∈ r.events →
          b = true ∧ Event.crossCorrelate c ∈ r.events)) ∧
    (cfg.primarySection = none →
      checkpointKeyError args cfg env = false ∧
      r.correlated = false ∧
      (∀ c, Event.crossCorrelate c ∉ r.events) ∧
      (∀ c b, Event.saveFeatures c b ∈ r.events → b = false)) := by
  obtain ⟨rfl, hkey⟩ := omega_main_ok_inv h
  have hcorr : (omega_main_run args cfg env).correlated =
      (initScan args cfg).2 := rfl
  constructor
  · intro hd p hp
    have hdc : disable_correlationOf args cfg = false := by
      simp [disable_correlationOf, hd, hp]
    have hinit := initScan_enabled args cfg p hdc hp
    have hc2 : (initScan args cfg).2 = true := by rw [hinit]
    have hco := omega_main_run_corrOk args cfg env
    rw [hc2] at hco
    refine ⟨?_, ?_, by rw [hcorr, hc2], ?_⟩
    · refine omega_main_run_mem_of_init args cfg env _ ?_
      rw [hinit]
      simp
    · refine omega_main_run_mem_of_init args cfg env _ ?_
      rw [hinit]
      simp
    · intro c b hm
      exact ⟨hco.1 c b hm, hco.2.2 rfl c b hm⟩
  · intro hp
    have hdc : disable_correlationOf args cfg = true := by
      simp [disable_correlationOf, hp]
    have hinit := initScan_disabled args cfg hdc
    have hc2 : (initScan args cfg).2 = false := by rw [hinit]
    have hco := omega_main_run_corrOk args cfg env
    rw [hc2] at hco
    exact ⟨hkey, by rw [hcorr, hc2], hco.2.1 rfl, hco.1⟩

theorem omega_main_correlation_witness :
    omega_main argsW2 cfgW2 envW =
      Except.ok (omega_main_run argsW2 cfgW2 envW) ∧
    ((argsW2.disable_correlation = false →
      ∀ p, cfgW2.primarySection = some p →
        Event.fetchPrimary p.channelName (gpsOf argsW2 - p.duration/2 - 1)
          (gpsOf argsW2 + p.duration/2 + 1) ∈
            (omega_main_run argsW2 cfgW2 envW).events ∧
        Event.buildPrimaryFilter p.channelName ∈
          (omega_main_run argsW2 cfgW2 envW).events ∧
        (omega_main_run argsW2 cfgW2 envW).correlated = true ∧
        (∀ c b, Event.saveFeatures c b ∈
            (omega_main_run argsW2 cfgW2 envW).events →
          b = true ∧ Event.crossCorrelate c ∈
            (omega_main_run argsW2 cfgW2 envW).events)) ∧
     (cfgW2.primarySection = none →
      checkpointKeyError argsW2 cfgW2 envW = false ∧
      (omega_main_run argsW2 cfgW2 envW).correlated = false ∧
      (∀ c, Event.crossCorrelate c ∉
        (omega_main_run argsW2 cfgW2 envW).events) ∧
      (∀ c b, Event.saveFeatures c b ∈
          (omega_main_run argsW2 cfgW2 envW).events → b = false))) :=
  ⟨rfl, omega_main_correlation argsW2 cfgW2 envW
    (omega_main_run argsW2 cfgW2 envW) rfl⟩

theorem handledChannels_append (a b : List Event) :
    handledChannels (a ++ b) = handledChannels a ++ handledChannels b := by
  rw [handledChannels, handledChannels, handledChannels, List.flatMap_append]

theorem handledChannels_cons (e : Event) (es : List Event) :
    handledChannels (e :: es) = hch e ++ handledChannels es := by
  rw [handledChannels, handledChannels, List.flatMap_cons]

theorem WP_append :
    ∀ (es₁ es₂ : List Event) (acc : List String),
      WP acc (es₁ ++ es₂) ↔
        (WP acc es₁ ∧ WP (acc ++ handledChannels es₁) es₂) := by
  intro es₁
  induction es₁ with
  | nil =>
    intro es₂ acc
    simp [WP, handledChannels]
  | cons e es ih =>
    intro es₂ acc
    rw [List.cons_append]
    show ((∀ toc, pageToc e = some toc → toc.Perm acc) ∧
        WP (acc ++ hch e) (es ++ es₂)) ↔ _
    rw [ih]
    constructor
    · rintro ⟨hp, h1, h2⟩
      refine ⟨⟨hp, h1⟩, ?_⟩
      rw [handledChannels_cons, ← List.append_assoc]
      exact h2
    · rintro ⟨⟨hp, h1⟩, h2⟩
      refine ⟨hp, h1, ?_⟩
      rw [handledChannels_cons, ← List.append_assoc] at h2
      exact h2

theorem WP_nopage (acc : List String) :
    ∀ (es : List Event), (∀ e ∈ es, pageToc e = none) → WP acc es := by
  intro es
  induction es generalizing acc with
  | nil => intro _; trivial
  | cons e es ih =>
    intro h
    refine ⟨?_, ih _ (fun e' he' => h e' (List.mem_cons_of_mem _ he'))⟩
    intro toc htoc
    rw [h e (List.mem_cons_self _ _)] at htoc
    cases htoc

theorem WP_load_page (acc toc' : List String) (cn : String) (ci : ℕ)
    (corr : Bool) (ifo : String) (gps : ℚ)
    (hperm : toc'.Perm (acc ++ [cn])) :
    WP acc [Event.loadCheckpoint cn ci corr,
      Event.writePage ifo gps toc' true] := by
  refine ⟨?_, ?_, trivial⟩
  · intro toc htoc
    simp [pageToc] at htoc
  · intro toc htoc
    simp only [pageToc, Option.some.injEq] at htoc
    subst htoc
    exact hperm

theorem WP_scan_chunk (acc toc' : List String) (cn : String) (corr : Bool)
    (ifo : String) (gps : ℚ) (hperm : toc'.Perm (acc ++ [cn])) :
    WP acc ([Event.scanChannel cn, Event.plotChannel cn] ++
      (if corr then [Event.crossCorrelate cn] else []) ++
      [Event.saveFeatures cn corr, Event.writePage ifo gps toc' true]) := by
  cases corr with
  | true =>
    rw [if_pos rfl]
    refine ⟨?_, ?_, ?_, ?_, ?_, trivial⟩
    · intro toc htoc; simp [pageToc] at htoc
    · intro toc htoc; simp [pageToc] at htoc
    · intro toc htoc; simp [pageToc] at htoc
    · intro toc htoc; simp [pageToc] at htoc
    · intro toc htoc
      simp only [pageToc, Option.some.injEq] at htoc
      subst htoc
      simp only [hch, List.append_nil]
      exact hperm
  | false =>
    rw [if_neg (by simp)]
    refine ⟨?_, ?_, ?_, ?_, trivial⟩
    · intro toc htoc; simp [pageToc] at htoc
    · intro toc htoc; simp [pageToc] at htoc
    · intro toc htoc; simp [pageToc] at htoc
    · intro toc htoc
      simp only [pageToc, Option.some.injEq] at htoc
      subst htoc
      simp only [hch, List.append_nil]
      exact hperm

theorem tocChannels_update_toc :
    ∀ (a : List (String × List String)) (n c : String),
      (tocChannels (update_toc a n c)).Perm (tocChannels a ++ [c]) := by
  intro a
  induction a with
  | nil =>
    intro n c
    simp [update_toc, tocChannels]
  | cons g rest ih =>
    intro n c
    obtain ⟨m, cs⟩ := g
    rw [update_toc]
    by_cases hm : m = n
    · rw [if_pos hm]
      show ((cs ++ [c]) ++ tocChannels rest).Perm
        ((cs ++ tocChannels rest) ++ [c])
      have h1 : (cs ++ [c]) ++ tocChannels rest =
          cs ++ ([c] ++ tocChannels rest) := by rw [List.append_assoc]
      have h2 : (cs ++ tocChannels rest) ++ [c] =
          cs ++ (tocChannels rest ++ [c]) := by rw [List.append_assoc]
      rw [h1, h2]
      exact List.Perm.append_left cs List.perm_append_comm
    · rw [if_neg hm]
      show (cs ++ tocChannels (update_toc rest n c)).Perm
        ((cs ++ tocChannels rest) ++ [c])
      have h2 : (cs ++ tocChannels rest) ++ [c] =
          cs ++ (tocChannels rest ++ [c]) := by rw [List.append_assoc]
      rw [h2]
      exact List.Perm.append_left cs (ih n c)

theorem processChannel_pageInv (env : Env) (correlate : Bool)
    (completed : List String) (blocks : List OmegaChannelList)
    (ifo : String) (gps : ℚ) (st : ScanState) (c : OmegaChannel)
    (hst : PageInv st) :
    PageInv (processChannel env correlate completed blocks ifo gps st c) := by
  obtain ⟨hwp, hperm⟩ := hst
  have hupd : (tocChannels (update_toc st.analyzed (blockNameOf blocks c)
      c.name)).Perm (handledChannels st.events ++ [c.name]) :=
    (tocChannels_update_toc st.analyzed (blockNameOf blocks c) c.name).trans
      (List.Perm.append_right [c.name] hperm)
  by_cases hmem : c.name ∈ completed
  · rw [processChannel_checkpoint env correlate completed blocks ifo gps st c hmem]
    constructor
    · rw [WP_append]
      exact ⟨hwp, WP_load_page _ _ _ _ _ _ _ hupd⟩
    · show (tocChannels (update_toc st.analyzed (blockNameOf blocks c)
        c.name)).Perm _
      rw [handledChannels_append]
      refine hupd.trans (List.Perm.of_eq ?_)
      congr 1
  · cases hscan : env.scan c.name with
    | error e =>
      rw [processChannel_error env correlate completed blocks ifo gps st c
        hmem e hscan]
      constructor
      · rw [WP_append]
        refine ⟨hwp, WP_nopage _ _ ?_⟩
        intro e' he'
        rcases List.mem_cons.mp he' with rfl | he'
        · rfl
        rcases List.mem_cons.mp he' with rfl | he'
        · rfl
        · simp at he'
      · show (tocChannels st.analyzed).Perm _
        rw [handledChannels_append]
        refine hperm.trans (List.Perm.of_eq ?_)
        simp [handledChannels, hch]
    | ok o =>
      cases o with
      | none =>
        rw [processChannel_none env correlate completed blocks ifo gps st c
          hmem hscan]
        constructor
        · rw [WP_append]
          refine ⟨hwp, WP_nopage _ _ ?_⟩
          intro e' he'
          rcases List.mem_cons.mp he' with rfl | he'
          · rfl
          rcases List.mem_cons.mp he' with rfl | he'
          · rfl
          · simp at he'
        · show (tocChannels st.analyzed).Perm _
          rw [handledChannels_append]
          refine hperm.trans (List.Perm.of_eq ?_)
          simp [handledChannels, hch]
      | some n =>
        rw [processChannel_some env correlate completed blocks ifo gps st c
          hmem n hscan]
        have heq : st.events ++
            [Event.scanChannel c.name, Event.plotChannel c.name] ++
            (if correlate then [Event.crossCorrelate c.name] else []) ++
            [Event.saveFeatures c.name correlate,
             Event.writePage ifo gps
               (tocChannels (update_toc st.analyzed (blockNameOf blocks c)
                 c.name)) true] =
            st.events ++
            ([Event.scanChannel c.name, Event.plotChannel c.name] ++
             (if correlate then [Event.crossCorrelate c.name] else []) ++
             [Event.saveFeatures c.name correlate,
              Event.writePage ifo gps
                (tocChannels (update_toc st.analyzed (blockNameOf blocks c)
                  c.name)) true]) := by
          simp [List.append_assoc]
        constructor
        · show WP [] (st.events ++ _ ++ _ ++ _)
          rw [heq, WP_append]
          exact ⟨hwp, WP_scan_chunk _ _ _ _ _ _ hupd⟩
        · show (tocChannels (update_toc st.analyzed (blockNameOf blocks c)
            c.name)).Perm _
          rw [heq, handledChannels_append]
          refine hupd.trans (List.Perm.of_eq ?_)
          congr 1
          cases correlate with
          | true => simp [handledChannels, hch]
          | false => simp [handledChannels, hch]

theorem pageInv_append_nopage (st : ScanState) (new : List Event)
    (hst : PageInv st) (hnew : ∀ e ∈ new, pageToc e = none ∧ hch e = []) :
    PageInv { st with events := st.events ++ new } := by
  obtain ⟨hwp, hperm⟩ := hst
  constructor
  · rw [WP_append]
    exact ⟨hwp, WP_nopage _ _ (fun e he => (hnew e he).1)⟩
  · show (tocChannels st.analyzed).Perm _
    rw [handledChannels_append]
    refine hperm.trans (List.Perm.of_eq ?_)
    have : handledChannels new = [] := by
      rw [handledChannels]
      rw [List.flatMap_eq_nil_iff]
      intro e he
      exact (hnew e he).2
    rw [this, List.append_nil]

theorem processBlockChannels_pageInv (env : Env) (correlate : Bool)
    (completed : List String) (blocks : List OmegaChannelList)
    (ifo : String) (gps : ℚ) (st : ScanState) (block : OmegaChannelList)
    (hst : PageInv st) :
    PageInv (processBlockChannels env correlate completed blocks ifo gps st
      block) := by
  rw [processBlockChannels_eq]
  refine foldl_preserve (P := PageInv) block.channels
    (fun s c _ hs => processChannel_pageInv env correlate completed blocks
      ifo gps s c hs) _ ?_
  by_cases hall : !((block.channels.map OmegaChannel.name).all
      (fun c => c ∈ completed))
  · rw [if_pos hall]
    refine pageInv_append_nopage st _ hst ?_
    intro e he
    rcases List.mem_singleton.mp he with rfl
    exact ⟨rfl, rfl⟩
  · rw [if_neg hall]
    exact hst

theorem processBlock_pageInv (args : Args) (env : Env) (correlate : Bool)
    (completed : List String) (blocks : List OmegaChannelList)
    (ifo : String) (gps : ℚ) (st : ScanState) (block : OmegaChannelList)
    (hst : PageInv st) :
    PageInv (processBlock args env correlate completed blocks ifo gps st
      block) := by
  rw [processBlock_eq]
  by_cases hflag : (match block.flag with
      | some f => decide (f ≠ "")
      | none => false) && !args.ignore_state_flags
  · rw [if_pos hflag]
    by_cases hactive : !(env.check_flag (block.flag.getD "") gps
        block.duration 1)
    · rw [if_pos hactive]
      refine pageInv_append_nopage st _ hst ?_
      intro e he
      rcases List.mem_cons.mp he with rfl | he
      · exact ⟨rfl, rfl⟩
      rcases List.mem_cons.mp he with rfl | he
      · exact ⟨rfl, rfl⟩
      · simp at he
    · rw [if_neg hactive]
      refine processBlockChannels_pageInv env correlate completed blocks ifo
        gps _ block ?_
      refine pageInv_append_nopage st _ hst ?_
      intro e he
      rcases List.mem_singleton.mp he with rfl
      exact ⟨rfl, rfl⟩
  · rw [if_neg hflag]
    exact processBlockChannels_pageInv env correlate completed blocks ifo gps
      st block hst

theorem initScan_pageInv (args : Args) (cfg : OmegaConfig) :
    PageInv (initScan args cfg).1 := by
  by_cases hdc : disable_correlationOf args cfg = true
  · rw [initScan_disabled args cfg hdc]
    refine ⟨⟨?_, trivial⟩, List.Perm.refl _⟩
    intro toc htoc
    simp only [pageToc, Option.some.injEq] at htoc
    subst htoc
    exact List.Perm.refl _
  · have hdc' : disable_correlationOf args cfg = false := by simpa using hdc
    cases hp : cfg.primarySection with
    | none =>
      exfalso
      rw [disable_correlationOf, Bool.or_eq_false_iff, hp] at hdc'
      exact absurd hdc'.2 (by simp)
    | some p =>
      rw [initScan_enabled args cfg p hdc' hp]
      refine ⟨⟨?_, ⟨?_, ?_, trivial⟩⟩, List.Perm.refl _⟩
      · intro toc htoc
        simp only [pageToc, Option.some.injEq] at htoc
        subst htoc
        exact List.Perm.refl _
      · intro toc htoc
        simp [pageToc] at htoc
      · intro toc htoc
        simp [pageToc] at htoc

theorem NP_of_no_handled (ifo : String) (gps : ℚ) :
    ∀ (es : List Event) (acc : List String),
      (∀ e ∈ es, hch e = []) → NP acc ifo gps es := by
  intro es
  induction es with
  | nil => intro acc _; trivial
  | cons e es ih =>
    intro acc h
    refine ⟨?_, ih _ (fun e' he' => h e' (List.mem_cons_of_mem _ he'))⟩
    intro hne
    exact absurd (h e (List.mem_cons_self _ _)) hne

theorem NP_append (ifo : String) (gps : ℚ) :
    ∀ (es₁ es₂ : List Event) (acc : List String),
      NP acc ifo gps es₁ → NP (acc ++ handledChannels es₁) ifo gps es₂ →
      NP acc ifo gps (es₁ ++ es₂) := by
  intro es₁
  induction es₁ with
  | nil =>
    intro es₂ acc _ h₂
    rw [show handledChannels [] = [] from rfl, List.append_nil] at h₂
    exact h₂
  | cons e es ih =>
    intro es₂ acc h₁ h₂
    obtain ⟨hpage, hrest⟩ := h₁
    rw [handledChannels_cons, ← List.append_assoc] at h₂
    refine ⟨?_, ih es₂ (acc ++ hch e) hrest h₂⟩
    intro hne
    obtain ⟨toc, rest, hes, hperm⟩ := hpage hne
    exact ⟨toc, rest ++ es₂, by rw [hes]; rfl, hperm⟩

theorem NP_load_page (ifo : String) (gps : ℚ) (acc toc' : List String)
    (cn : String) (ci : ℕ) (corr : Bool)
    (hperm : toc'.Perm (acc ++ [cn])) :
    NP acc ifo gps [Event.loadCheckpoint cn ci corr,
      Event.writePage ifo gps toc' true] := by
  refine ⟨?_, ?_, trivial⟩
  · intro _
    exact ⟨toc', [], rfl, hperm⟩
  · intro hne
    exact absurd rfl hne

theorem NP_scan_chunk (ifo : String) (gps : ℚ) (acc toc' : List String)
    (cn : String) (corr : Bool) (hperm : toc'.Perm (acc ++ [cn])) :
    NP acc ifo gps ([Event.scanChannel cn, Event.plotChannel cn] ++
      (if corr then [Event.crossCorrelate cn] else []) ++
      [Event.saveFeatures cn corr, Event.writePage ifo gps toc' true]) := by
  cases corr with
  | true =>
    rw [if_pos rfl]
    refine ⟨?_, ?_, ?_, ?_, ?_, trivial⟩
    · intro hne; exact absurd rfl hne
    · intro hne; exact absurd rfl hne
    · intro hne; exact absurd rfl hne
    · intro _
      refine ⟨toc', [], rfl, ?_⟩
      refine hperm.trans (List.Perm.of_eq ?_)
      simp [hch]
    · intro hne; exact absurd rfl hne
  | false =>
    rw [if_neg (by simp)]
    refine ⟨?_, ?_, ?_, ?_, trivial⟩
    · intro hne; exact absurd rfl hne
    · intro hne; exact absurd rfl hne
    · intro _
      refine ⟨toc', [], rfl, ?_⟩
      refine hperm.trans (List.Perm.of_eq ?_)
      simp [hch]
    · intro hne; exact absurd rfl hne

theorem NP_get (ifo : String) (gps : ℚ) :
    ∀ (es : List Event) (acc : List String), NP acc ifo gps es →
      ∀ (i : ℕ) (e : Event), es.get? i = some e → hch e ≠ [] →
        ∃ toc, es.get? (i + 1) = some (Event.writePage ifo gps toc true) ∧
          toc.Perm (acc ++ handledChannels (es.take (i + 1))) := by
  intro es
  induction es with
  | nil => intro acc _ i e h; simp at h
  | cons e' es ih =>
    intro acc hnp i e hget hne
    obtain ⟨hpage, hrest⟩ := hnp
    cases i with
    | zero =>
      simp only [List.get?_cons_zero, Option.some.injEq] at hget
      subst hget
      obtain ⟨toc, rest, hes, hperm⟩ := hpage hne
      refine ⟨toc, ?_, ?_⟩
      · rw [List.get?_cons_succ, hes]
        rfl
      · have ht : handledChannels ((e' :: es).take 1) = hch e' ++ [] := by
          rw [show (e' :: es).take 1 = [e'] from rfl, handledChannels_cons]
          rfl
        rw [ht, List.append_nil]
        exact hperm
    | succ i =>
      rw [List.get?_cons_succ] at hget
      obtain ⟨toc, hg, hperm⟩ := ih (acc ++ hch e') hrest i e hget hne
      refine ⟨toc, by rw [List.get?_cons_succ]; exact hg, ?_⟩
      have ht : (e' :: es).take (i + 1 + 1) = e' :: es.take (i + 1) := rfl
      rw [ht, handledChannels_cons, ← List.append_assoc]
      exact hperm

theorem processChannel_pageInvNP (env : Env) (correlate : Bool)
    (completed : List String) (blocks : List OmegaChannelList)
    (ifo : String) (gps : ℚ) (st : ScanState) (c : OmegaChannel)
    (hst : PageInv st ∧ NP [] ifo gps st.events) :
    PageInv (processChannel env correlate completed blocks ifo gps st c) ∧
    NP [] ifo gps
      (processChannel env correlate completed blocks ifo gps st c).events := by
  obtain ⟨hpi, hnp⟩ := hst
  refine ⟨processChannel_pageInv env correlate completed blocks ifo gps st c
    hpi, ?_⟩
  have hupd : (tocChannels (update_toc st.analyzed (blockNameOf blocks c)
      c.name)).Perm (handledChannels st.events ++ [c.name]) :=
    (tocChannels_update_toc st.analyzed (blockNameOf blocks c) c.name).trans
      (List.Perm.append_right [c.name] hpi.2)
  by_cases hmem : c.name ∈ completed
  · rw [processChannel_checkpoint env correlate completed blocks ifo gps st c
      hmem]
    exact NP_append ifo gps _ _ _ hnp (NP_load_page ifo gps _ _ _ _ _ hupd)
  · cases hscan : env.scan c.name with
    | error e =>
      rw [processChannel_error env correlate completed blocks ifo gps st c
        hmem e hscan]
      refine NP_append ifo gps _ _ _ hnp (NP_of_no_handled ifo gps _ _ ?_)
      intro e' he'
      rcases List.mem_cons.mp he' with rfl | he'
      · rfl
      rcases List.mem_cons.mp he' with rfl | he'
      · rfl
      · simp at he'
    | ok o =>
      cases o with
      | none =>
        rw [processChannel_none env correlate completed blocks ifo gps st c
          hmem hscan]
        refine NP_append ifo gps _ _ _ hnp (NP_of_no_handled ifo gps _ _ ?_)
        intro e' he'
        rcases List.mem_cons.mp he' with rfl | he'
        · rfl
        rcases List.mem_cons.mp he' with rfl | he'
        · rfl
        · simp at he'
      | some n =>
        rw [processChannel_some env correlate completed blocks ifo gps st c
          hmem n hscan]
        have heq : st.events ++
            [Event.scanChannel c.name, Event.plotChannel c.name] ++
            (if correlate then [Event.crossCorrelate c.name] else []) ++
            [Event.saveFeatures c.name correlate,
             Event.writePage ifo gps
               (tocChannels (update_toc st.analyzed (blockNameOf blocks c)
                 c.name)) true] =
            st.events ++
            ([Event.scanChannel c.name, Event.plotChannel c.name] ++
             (if correlate then [Event.crossCorrelate c.name] else []) ++
             [Event.saveFeatures c.name correlate,
              Event.writePage ifo gps
                (tocChannels (update_toc st.analyzed (blockNameOf blocks c)
                  c.name)) true]) := by
          simp [List.append_assoc]
        show NP [] ifo gps (st.events ++ _ ++ _ ++ _)
        rw [heq]
        exact NP_append ifo gps _ _ _ hnp
          (NP_scan_chunk ifo gps _ _ _ _ hupd)

theorem pageInvNP_append_nopage (ifo : String) (gps : ℚ) (st : ScanState)
    (new : List Event) (hst : PageInv st ∧ NP [] ifo gps st.events)
    (hnew : ∀ e ∈ new, pageToc e = none ∧ hch e = []) :
    PageInv { st with events := st.events ++ new } ∧
    NP [] ifo gps (st.events ++ new) := by
  refine ⟨pageInv_append_nopage st new hst.1 hnew, ?_⟩
  exact NP_append ifo gps _ _ _ hst.2
    (NP_of_no_handled ifo gps _ _ (fun e he => (hnew e he).2))

theorem processBlockChannels_pageInvNP (env : Env) (correlate : Bool)
    (completed : List String) (blocks : List OmegaChannelList)
    (ifo : String) (gps : ℚ) (st : ScanState) (block : OmegaChannelList)
    (hst : PageInv st ∧ NP [] ifo gps st.events) :
    PageInv (processBlockChannels env correlate completed blocks ifo gps st
      block) ∧
    NP [] ifo gps (processBlockChannels env correlate completed blocks ifo
      gps st block).events := by
  rw [processBlockChannels_eq]
  refine foldl_preserve
    (P := fun s => PageInv s ∧ NP [] ifo gps s.events) block.channels
    (fun s c _ hs => processChannel_pageInvNP env correlate completed blocks
      ifo gps s c hs) _ ?_
  by_cases hall : !((block.channels.map OmegaChannel.name).all
      (fun c => c ∈ completed))
  · rw [if_pos hall]
    refine pageInvNP_append_nopage ifo gps st _ hst ?_
    intro e he
    rcases List.mem_singleton.mp he with rfl
    exact ⟨rfl, rfl⟩
  · rw [if_neg hall]
    exact hst

theorem processBlock_pageInvNP (args : Args) (env : Env) (correlate : Bool)
    (completed : List String) (blocks : List OmegaChannelList)
    (ifo : String) (gps : ℚ) (st : ScanState) (block : OmegaChannelList)
    (hst : PageInv st ∧ NP [] ifo gps st.events) :
    PageInv (processBlock args env correlate completed blocks ifo gps st
      block) ∧
    NP [] ifo gps (processBlock args env correlate completed blocks ifo gps
      st block).events := by
  rw [processBlock_eq]
  by_cases hflag : (match block.flag with
      | some f => decide (f ≠ "")
      | none => false) && !args.ignore_state_flags
  · rw [if_pos hflag]
    by_cases hactive : !(env.check_flag (block.flag.getD "") gps
        block.duration 1)
    · rw [if_pos hactive]
      refine pageInvNP_append_nopage ifo gps st _ hst ?_
      intro e he
      rcases List.mem_cons.mp he with rfl | he
      · exact ⟨rfl, rfl⟩
      rcases List.mem_cons.mp he with rfl | he
      · exact ⟨rfl, rfl⟩
      · simp at he
    · rw [if_neg hactive]
      refine processBlockChannels_pageInvNP env correlate completed blocks
        ifo gps _ block ?_
      refine pageInvNP_append_nopage ifo gps st _ hst ?_
      intro e he
      rcases List.mem_singleton.mp he with rfl
      exact ⟨rfl, rfl⟩
  · rw [if_neg hflag]
    exact processBlockChannels_pageInvNP env correlate completed blocks ifo
      gps st block hst

theorem initScan_pageInvNP (args : Args) (cfg : OmegaConfig) :
    PageInv (initScan args cfg).1 ∧
    NP [] (ifoOf args) (gpsOf args) (initScan args cfg).1.events := by
  refine ⟨initScan_pageInv args cfg, ?_⟩
  by_cases hdc : disable_correlationOf args cfg = true
  · rw [initScan_disabled args cfg hdc]
    refine NP_of_no_handled _ _ _ _ ?_
    intro e he
    rcases List.mem_singleton.mp he with rfl
    rfl
  · have hdc' : disable_correlationOf args cfg = false := by simpa using hdc
    cases hp : cfg.primarySection with
    | none =>
      exfalso
      rw [disable_correlationOf, Bool.or_eq_false_iff, hp] at hdc'
      exact absurd hdc'.2 (by simp)
    | some p =>
      rw [initScan_enabled args cfg p hdc' hp]
      refine NP_of_no_handled _ _ _ _ ?_
      intro e he
      rcases List.mem_cons.mp he with rfl | he
      · rfl
      rcases List.mem_cons.mp he with rfl | he
      · rfl
      rcases List.mem_cons.mp he with rfl | he
      · rfl
      · simp at he

/-- C4: after each handled channel (restored from checkpoint or newly
scanned as significant) the driver immediately rewrites the report page
with auto-refresh on, listing exactly the channels analyzed so far (the
positional conjunct: the next trace event after every checkpoint restore
or feature save is such a page write); every page write of the run lists
exactly the channels handled before it (`WP [] r.events`); the final
table of contents lists exactly the handled channels; and the run ends
with one more page write with auto-refresh off when channels were
analyzed, or with the null page and its reason otherwise. -/
theorem omega_main_pages (args : Args) (cfg : OmegaConfig) (env : Env)
    (r : MainOk) (h : omega_main args cfg env = Except.ok r) :
    WP [] r.events ∧
    (∀ (i : ℕ) (e : Event), r.events.get? i = some e → hch e ≠ [] →
      ∃ toc, r.events.get? (i + 1) =
        some (Event.writePage (ifoOf args) (gpsOf args) toc true) ∧
        toc.Perm (handledChannels (r.events.take (i + 1)))) ∧
    (tocChannels r.analyzed).Perm (handledChannels r.events) ∧
    (r.analyzed = [] → r.events.getLast? =
      some (Event.writeNull (ifoOf args) (gpsOf args) nullReason)) ∧
    (r.analyzed ≠ [] → r.events.getLast? =
      some (Event.writePage (ifoOf args) (gpsOf args)
        (tocChannels r.analyzed) false)) := by
  obtain ⟨rfl, -⟩ := omega_main_ok_inv h
  have hinv : PageInv (cfg.blocks.foldl (processBlock args env
      (initScan args cfg).2 (completedOf args env) cfg.blocks (ifoOf args)
      (gpsOf args)) (initScan args cfg).1) ∧
      NP [] (ifoOf args) (gpsOf args)
        (cfg.blocks.foldl (processBlock args env (initScan args cfg).2
          (completedOf args env) cfg.blocks (ifoOf args) (gpsOf args))
          (initScan args cfg).1).events :=
    foldl_preserve
      (P := fun s => PageInv s ∧ NP [] (ifoOf args) (gpsOf args) s.events)
      cfg.blocks
      (fun s b _ hs => processBlock_pageInvNP args env (initScan args cfg).2
        (completedOf args env) cfg.blocks (ifoOf args) (gpsOf args) s b hs)
      _ (initScan_pageInvNP args cfg)
  obtain ⟨⟨hwp, hperm⟩, hnp⟩ := hinv
  have hanalyzed := omega_main_run_analyzed args cfg env
  have hnpfull : NP [] (ifoOf args) (gpsOf args)
      (omega_main_run args cfg env).events := by
    rw [omega_main_run_events]
    refine NP_append _ _ _ _ _ hnp (NP_of_no_handled _ _ _ _ ?_)
    intro e he
    rcases List.mem_singleton.mp he with rfl
    split
    · rfl
    · rfl
  refine ⟨?_, ?_, ?_, ?_, ?_⟩
  · rw [omega_main_run_events, WP_append]
    refine ⟨hwp, ?_⟩
    by_cases han : (cfg.blocks.foldl (processBlock args env
        (initScan args cfg).2 (completedOf args env) cfg.blocks (ifoOf args)
        (gpsOf args)) (initScan args cfg).1).analyzed ≠ []
    · rw [if_pos han]
      refine ⟨?_, trivial⟩
      intro toc htoc
      simp only [pageToc, Option.some.injEq] at htoc
      subst htoc
      exact hperm.trans (List.Perm.of_eq (List.nil_append _).symm)
    · rw [if_neg han]
      refine ⟨?_, trivial⟩
      intro toc htoc
      simp [pageToc] at htoc
  · intro i e hget hne
    obtain ⟨toc, hg, hp⟩ := NP_get (ifoOf args) (gpsOf args) _ [] hnpfull
      i e hget hne
    exact ⟨toc, hg, hp.trans (List.Perm.of_eq (List.nil_append _))⟩
  · rw [omega_main_run_events, hanalyzed, handledChannels_append]
    refine hperm.trans (List.Perm.of_eq ?_)
    have : ∀ (ev : Event), hch ev = [] →
        handledChannels [ev] = [] := by
      intro ev hev
      simp [handledChannels, hev]
    rw [this _ ?hc, List.append_nil]
    case hc =>
      split
      · rfl
      · rfl
  · intro hempty
    rw [omega_main_run_events, List.getLast?_concat]
    rw [hanalyzed] at hempty
    rw [if_neg (by simp [hempty])]
  · intro hne
    rw [omega_main_run_events, List.getLast?_concat]
    rw [hanalyzed] at hne
    rw [if_pos hne, hanalyzed]

theorem omega_main_pages_witness :
    omega_main argsW cfgW envW = Except.ok rW ∧
    (WP [] rW.events ∧
     (∀ (i : ℕ) (e : Event), rW.events.get? i = some e → hch e ≠ [] →
       ∃ toc, rW.events.get? (i + 1) =
         some (Event.writePage (ifoOf argsW) (gpsOf argsW) toc true) ∧
         toc.Perm (handledChannels (rW.events.take (i + 1)))) ∧
     (tocChannels rW.analyzed).Perm (handledChannels rW.events) ∧
     (rW.analyzed = [] → rW.events.getLast? =
       some (Event.writeNull (ifoOf argsW) (gpsOf argsW) nullReason)) ∧
     (rW.analyzed ≠ [] → rW.events.getLast? =
       some (Event.writePage (ifoOf argsW) (gpsOf argsW)
         (tocChannels rW.analyzed) false))) :=
  ⟨rfl, omega_main_pages argsW cfgW envW rW rfl⟩

theorem get?_indexOf_self :
    ∀ (l : List String) (a : String), a ∈ l → l.get? (l.indexOf a) = some a := by
  intro l
  induction l with
  | nil => intro a ha; simp at ha
  | cons x xs ih =>
    intro a ha
    by_cases hx : x = a
    · subst hx
      rw [List.indexOf_cons_self]
      rfl
    · have hxa : a ∈ xs := by
        rcases List.mem_cons.mp ha with rfl | h
        · exact absurd rfl hx
        · exact h
      have hbe : (x == a) = false := by simp [hx]
      rw [List.indexOf_cons, hbe, cond_false, List.get?_cons_succ]
      exact ih a hxa

/-- C1: when the `completed` list is the checkpoint's `Channel` column (the
checkpoint file exists and checkpointing is not disabled), a channel whose
name appears in it is not re-scanned: the driver loads the loudest-tile
features from the corresponding checkpoint row (`completed.index(name)`
points back at that channel's row), adds the channel to the report's table
of contents, and rewrites the page; a channel not in the checkpoint is
scanned normally.  Moreover `completed` is the `Channel` column exactly
when the checkpoint exists and checkpointing is enabled. -/
theorem processChannel_checkpoint_resume (env : Env) (correlate : Bool)
    (record : CheckpointRecord) (completed : List String)
    (blocks : List OmegaChannelList) (ifo : String) (gps : ℚ)
    (st : ScanState) (c : OmegaChannel)
    (hcomp : completed = record.channelColumn) :
    (c.name ∈ completed →
      processChannel env correlate completed blocks ifo gps st c =
        { analyzed := update_toc st.analyzed (blockNameOf blocks c) c.name
          events := st.events ++
            [.loadCheckpoint c.name (completed.indexOf c.name) correlate,
             .writePage ifo gps (tocChannels (update_toc st.analyzed
               (blockNameOf blocks c) c.name)) true] } ∧
      record.channelColumn.get? (completed.indexOf c.name) = some c.name ∧
      c.name ∈ tocChannels (update_toc st.analyzed (blockNameOf blocks c)
        c.name)) ∧
    (c.name ∉ completed →
      ∃ tail, (processChannel env correlate completed blocks ifo gps st
        c).events = st.events ++ Event.scanChannel c.name :: tail) ∧
    (∀ (args' : Args) (env' : Env), env'.summaryExists = true →
      args'.disable_checkpoint = false →
      completedOf args' env' = env'.record.channelColumn) := by
  refine ⟨?_, ?_, ?_⟩
  · intro hmem
    refine ⟨processChannel_checkpoint env correlate completed blocks ifo gps
      st c hmem, ?_, ?_⟩
    · rw [← hcomp]
      exact get?_indexOf_self completed c.name hmem
    · have := tocChannels_update_toc st.analyzed (blockNameOf blocks c) c.name
      rw [this.mem_iff]
      simp
  · intro hmem
    cases hscan : env.scan c.name with
    | error e =>
      refine ⟨[Event.skipChannel c.name], ?_⟩
      rw [processChannel_error env correlate completed blocks ifo gps st c
        hmem e hscan]
    | ok o =>
      cases o with
      | none =>
        refine ⟨[Event.notSignificant c.name], ?_⟩
        rw [processChannel_none env correlate completed blocks ifo gps st c
          hmem hscan]
      | some n =>
        refine ⟨[Event.plotChannel c.name] ++
          (if correlate then [Event.crossCorrelate c.name] else []) ++
          [Event.saveFeatures c.name correlate,
           Event.writePage ifo gps (tocChannels (update_toc st.analyzed
             (blockNameOf blocks c) c.name)) true], ?_⟩
        rw [processChannel_some env correlate completed blocks ifo gps st c
          hmem n hscan]
        simp [List.append_assoc]
  · intro args' env' hsum hdis
    rw [completedOf, hsum, hdis]
    rfl

theorem processChannel_checkpoint_resume_witness :
    (["X1:GW"] : List String) = recordC.channelColumn ∧
    ((chanW.name ∈ (["X1:GW"] : List String) →
      processChannel envW true ["X1:GW"] [blockW] "Network" (around2 5)
          { analyzed := [], events := [] } chanW =
        { analyzed := update_toc [] (blockNameOf [blockW] chanW) chanW.name
          events := [] ++
            [.loadCheckpoint chanW.name
              ((["X1:GW"] : List String).indexOf chanW.name) true,
             .writePage "Network" (around2 5) (tocChannels (update_toc []
               (blockNameOf [blockW] chanW) chanW.name)) true] } ∧
      recordC.channelColumn.get?
        ((["X1:GW"] : List String).indexOf chanW.name) = some chanW.name ∧
      chanW.name ∈ tocChannels (update_toc []
        (blockNameOf [blockW] chanW) chanW.name)) ∧
     (chanW.name ∉ (["X1:GW"] : List String) →
      ∃ tail, (processChannel envW true ["X1:GW"] [blockW] "Network"
        (around2 5) { analyzed := [], events := [] } chanW).events =
        [] ++ Event.scanChannel chanW.name :: tail) ∧
     (∀ (args' : Args) (env' : Env), env'.summaryExists = true →
      args'.disable_checkpoint = false →
      completedOf args' env' = env'.record.channelColumn)) :=
  ⟨rfl, processChannel_checkpoint_resume envW true recordC ["X1:GW"] [blockW]
    "Network" (around2 5) { analyzed := [], events := [] } chanW rfl⟩

theorem processChannel_filter_fetch (env : Env) (correlate : Bool)
    (completed : List String) (blocks : List OmegaChannelList)
    (ifo : String) (gps : ℚ) (st : ScanState) (c : OmegaChannel) :
    ((processChannel env correlate completed blocks ifo gps st
      c).events).filter isFetchBlock = st.events.filter isFetchBlock := by
  by_cases hmem : c.name ∈ completed
  · rw [processChannel_checkpoint env correlate completed blocks ifo gps st c hmem]
    simp [List.filter_append, isFetchBlock]
  · cases hscan : env.scan c.name with
    | error e =>
      rw [processChannel_error env correlate completed blocks ifo gps st c
        hmem e hscan]
      simp [List.filter_append, isFetchBlock]
    | ok o =>
      cases o with
      | none =>
        rw [processChannel_none env correlate completed blocks ifo gps st c
          hmem hscan]
        simp [List.filter_append, isFetchBlock]
      | some n =>
        rw [processChannel_some env correlate completed blocks ifo gps st c
          hmem n hscan]
        cases correlate with
        | true =>
          rw [if_pos rfl]
          simp [List.filter_append, isFetchBlock]
        | false =>
          rw [if_neg (by simp)]
          simp [List.filter_append, isFetchBlock]

theorem processBlockChannels_filter (env : Env) (correlate : Bool)
    (completed : List String) (blocks : List OmegaChannelList)
    (ifo : String) (gps : ℚ) (st : ScanState) (block : OmegaChannelList) :
    (processBlockChannels env correlate completed blocks ifo gps st
      block).events.filter isFetchBlock =
      st.events.filter isFetchBlock ++
      (if ((block.channels.map OmegaChannel.name).all
          (fun c => c ∈ completed)) = false then
        [Event.fetchBlock (block.channels.map OmegaChannel.name)
          (gps - block.duration/2 - 1) (gps + block.duration/2 + 1)]
      else []) := by
  rw [processBlockChannels_eq]
  have hfold : ∀ (st1 : ScanState),
      (block.channels.foldl (processChannel env correlate completed blocks
        ifo gps) st1).events.filter isFetchBlock =
      st1.events.filter isFetchBlock := by
    intro st1
    exact foldl_preserve
      (P := fun s => s.events.filter isFetchBlock =
        st1.events.filter isFetchBlock)
      block.channels
      (fun s c _ hs =>
        (processChannel_filter_fetch env correlate completed blocks ifo
          gps s c).trans hs)
      st1 rfl
  by_cases hall : ((block.channels.map OmegaChannel.name).all
      (fun c => c ∈ completed)) = true
  · rw [if_neg (by simp [hall]), hfold st, if_neg (by simp [hall]),
      List.append_nil]
  · have hall' : ((block.channels.map OmegaChannel.name).all
        (fun c => c ∈ completed)) = false := by
      cases hv : (block.channels.map OmegaChannel.name).all
        (fun c => c ∈ completed)
      · rfl
      · exact absurd hv hall
    rw [if_pos (by simp [hall']), hfold _, if_pos hall']
    simp [List.filter_append, isFetchBlock]

/-- C5 (amended): a block whose (truthy) state flag is checked and found
inactive over the padded window is skipped whole — only the flag query and
the skip are recorded, no data is fetched and no channel is processed;
a block that is not skipped by a state flag fetches the data for all of
its channels in exactly one batched read over the padded window when its
channels are not all already completed, and fetches nothing when they
are. -/
theorem processBlock_batching (args : Args) (env : Env) (correlate : Bool)
    (completed : List String) (blocks : List OmegaChannelList)
    (ifo : String) (gps : ℚ) (st : ScanState) (block : OmegaChannelList) :
    (∀ f, block.flag = some f →
      (decide (f ≠ "") && !args.ignore_state_flags) = true →
      env.check_flag f gps block.duration 1 = false →
      processBlock args env correlate completed blocks ifo gps st block =
        { st with events := st.events ++
            [.queryFlag f, .skipBlock block.key] }) ∧
    ((((match block.flag with
        | some f => decide (f ≠ "")
        | none => false) && !args.ignore_state_flags) = false ∨
      env.check_flag (block.flag.getD "") gps block.duration 1 = true) →
      (((block.channels.map OmegaChannel.name).all
          (fun c => c ∈ completed)) = false →
        (processBlock args env correlate completed blocks ifo gps st
          block).events.filter isFetchBlock =
          st.events.filter isFetchBlock ++
          [Event.fetchBlock (block.channels.map OmegaChannel.name)
            (gps - block.duration/2 - 1) (gps + block.duration/2 + 1)]) ∧
      (((block.channels.map OmegaChannel.name).all
          (fun c => c ∈ completed)) = true →
        (processBlock args env correlate completed blocks ifo gps st
          block).events.filter isFetchBlock =
          st.events.filter isFetchBlock)) := by
  constructor
  · intro f hf hcond hinactive
    rw [processBlock_eq, hf, if_pos hcond]
    simp only [Option.getD_some]
    rw [if_pos (by rw [hinactive]; rfl)]
  · intro hnot
    by_cases hfc : ((match block.flag with
        | some f => decide (f ≠ "")
        | none => false) && !args.ignore_state_flags) = true
    · have hactive : env.check_flag (block.flag.getD "") gps
          block.duration 1 = true := by
        rcases hnot with hnot | hnot
        · rw [hfc] at hnot; cases hnot
        · exact hnot
      rw [processBlock_eq, if_pos hfc, if_neg (by rw [hactive]; simp)]
      constructor
      · intro hall
        rw [processBlockChannels_filter, if_pos hall]
        simp [List.filter_append, isFetchBlock]
      · intro hall
        rw [processBlockChannels_filter, if_neg (by simp [hall]),
          List.append_nil]
        simp [List.filter_append, isFetchBlock]
    · rw [processBlock_eq, if_neg hfc]
      constructor
      · intro hall
        rw [processBlockChannels_filter, if_pos hall]
      · intro hall
        rw [processBlockChannels_filter, if_neg (by simp [hall]),
          List.append_nil]

/-- C5 (counterexample): the state-flag check happens before the batched
read, so a flag-skipped block with uncompleted channels is never fetched,
refuting the claim's unconditional "for every block whose channels are not
all already completed, the data is fetched". -/
theorem claimC5Literal_cex : ¬ claimC5Literal argsW cfgC5 envC5 := by
  intro h
  obtain ⟨h1, -⟩ := h (omega_main_run argsW cfgC5 envC5) rfl
  obtain ⟨s, e, hmem⟩ := h1 blockF (List.mem_singleton.mpr rfl) (by decide)
  have hev : (omega_main_run argsW cfgC5 envC5).events =
      [Event.writePage "Network" (around2 5) [] true,
       Event.queryFlag "X1:DMT-ANALYSIS_READY:1",
       Event.skipBlock "FLG",
       Event.writeNull "Network" (around2 5) nullReason] := rfl
  rw [hev] at hmem
  simp at hmem

/-- C6: if an existing checkpoint is read (the file exists, checkpointing
enabled), correlation is on (not disabled, `[primary]` present) and the
record has no `'Standard Deviation'` column, the driver raises the
`KeyError` before anything is fetched, scanned or written (the error's
trace is empty, and the record is never written back); with correlation
disabled or checkpointing disabled the run completes without this
error. -/
theorem omega_main_checkpoint_keyError (args : Args) (cfg : OmegaConfig)
    (env : Env) :
    (env.summaryExists = true → args.disable_checkpoint = false →
      args.disable_correlation = false → cfg.primarySection.isSome = true →
      env.record.colnames.contains "Standard Deviation" = false →
      omega_main args cfg env = Except.error (.keyError [])) ∧
    (args.disable_correlation = true ∨ args.disable_checkpoint = true →
      omega_main args cfg env = Except.ok (omega_main_run args cfg env)) := by
  constructor
  · intro hsum hchk hcorr hprim hcol
    have hkey : checkpointKeyError args cfg env = true := by
      rw [checkpointKeyError, disable_correlationOf, hsum, hchk, hcorr, hcol]
      cases hp : cfg.primarySection with
      | none => rw [hp] at hprim; cases hprim
      | some p => rfl
    rw [omega_main, if_pos hkey]
  · intro hdis
    have hkey : checkpointKeyError args cfg env = false := by
      rw [checkpointKeyError, disable_correlationOf]
      rcases hdis with hdis | hdis
      · rw [hdis]
        simp
      · rw [hdis]
        simp
    rw [omega_main, if_neg (by rw [hkey]; simp)]

/-- C9: `'Network' or args.ifo` is always `'Network'` (a non-empty string
literal is truthy), so the interferometer label used in the page title,
the default configuration-file choice and the default output directory is
the constant `'Network'`, and two runs differing only in `--ifo` are
identical. -/
theorem omega_main_ifo_invariant (args : Args) (cfg : OmegaConfig)
    (env : Env) :
    (∀ x : Option String, ifoOf { args with ifo := x } = "Network") ∧
    (∀ x : Option String,
      omega_main { args with ifo := x } cfg env = omega_main args cfg env) ∧
    (∀ r, omega_main args cfg env = Except.ok r →
      r.ifo = "Network" ∧
      r.title = "Network" ++ " Qscan | " ++ toString (gpsOf args) ∧
      r.config_file = pyOrList args.config_file
        (env.get_default_configuration "Network" (gpsOf args)) ∧
      r.outdir = pyOrStr args.output_directory
        (defaultOutdir "Network" (gpsOf args))) := by
  refine ⟨fun x => rfl, fun x => rfl, ?_⟩
  intro r h
  obtain ⟨rfl, -⟩ := omega_main_ok_inv h
  exact ⟨rfl, rfl, rfl, rfl⟩

/-- C10: a `ValueError` or `KeyError` raised while scanning one channel,
or a `None` (insignificant) scan result, never aborts the run: the channel
is skipped (only the scan attempt and the skip marker are recorded, the
table of contents is unchanged, so the channel is excluded from the
report) and processing continues; whether the driver completes is
independent of the scan outcomes. -/
theorem omega_main_scan_errors (env : Env) (correlate : Bool)
    (completed : List String) (blocks : List OmegaChannelList)
    (ifo : String) (gps : ℚ) (st : ScanState) (c : OmegaChannel)
    (hmem : c.name ∉ completed) :
    (∀ e, env.scan c.name = .error e →
      processChannel env correlate completed blocks ifo gps st c =
        { st with events := st.events ++
            [.scanChannel c.name, .skipChannel c.name] }) ∧
    (env.scan c.name = .ok none →
      processChannel env correlate completed blocks ifo gps st c =
        { st with events := st.events ++
            [.scanChannel c.name, .notSignificant c.name] }) ∧
    (∀ (args : Args) (cfg : OmegaConfig)
      (scanA scanB : String → Except ScanExc (Option ℕ)),
      (omega_main args cfg { env with scan := scanA }).isOk =
      (omega_main args cfg { env with scan := scanB }).isOk) := by
  refine ⟨?_, ?_, ?_⟩
  · intro e hscan
    exact processChannel_error env correlate completed blocks ifo gps st c
      hmem e hscan
  · intro hscan
    exact processChannel_none env correlate completed blocks ifo gps st c
      hmem hscan
  · intro args cfg scanA scanB
    by_cases hk : checkpointKeyError args cfg { env with scan := scanA } = true
    · have hk2 : checkpointKeyError args cfg { env with scan := scanB } =
          true := hk
      have e1 : omega_main args cfg { env with scan := scanA } =
          Except.error (.keyError []) := by rw [omega_main, if_pos hk]
      have e2 : omega_main args cfg { env with scan := scanB } =
          Except.error (.keyError []) := by rw [omega_main, if_pos hk2]
      rw [e1, e2]
    · have hk2 : ¬ checkpointKeyError args cfg { env with scan := scanB } =
          true := hk
      have e1 : omega_main args cfg { env with scan := scanA } =
          Except.ok (omega_main_run args cfg { env with scan := scanA }) := by
        rw [omega_main, if_neg hk]
      have e2 : omega_main args cfg { env with scan := scanB } =
          Except.ok (omega_main_run args cfg { env with scan := scanB }) := by
        rw [omega_main, if_neg hk2]
      rw [e1, e2]
      rfl

theorem omega_main_scan_errors_witness :
    (chanW.name ∉ ([] : List String)) ∧
    ((∀ e, envW.scan chanW.name = .error e →
      processChannel envW false [] [blockW] "Network" (around2 5)
          { analyzed := [], events := [] } chanW =
        { analyzed := [], events := [] ++
            [.scanChannel chanW.name, .skipChannel chanW.name] }) ∧
     (envW.scan chanW.name = .ok none →
      processChannel envW false [] [blockW] "Network" (around2 5)
          { analyzed := [], events := [] } chanW =
        { analyzed := [], events := [] ++
            [.scanChannel chanW.name, .notSignificant chanW.name] }) ∧
     (∀ (args : Args) (cfg : OmegaConfig)
       (scanA scanB : String → Except ScanExc (Option ℕ)),
       (omega_main args cfg { envW with scan := scanA }).isOk =
       (omega_main args cfg { envW with scan := scanB }).isOk)) :=
  ⟨by decide, omega_main_scan_errors envW false [] [blockW] "Network"
    (around2 5) { analyzed := [], events := [] } chanW (by decide)⟩
